import Mathlib

/-!
# Benchmark table: log scraping and tabular rendering

A shallow embedding of `programs/reversible/benchmark_table.cpp` (the scan of a
directory of benchmark artifacts, the parsing of their logs and the table that
is built from them) and of `test/benchmark_table.hpp` (the generic renderer
with fitted column widths), followed by theorems about both.

Conventions of the embedding:

* a `std::string` is a list of characters;
* code that can throw or run into undefined behaviour returns `Except fault _`;
* a closure that mutates captured state is a function from state to state;
* `unsigned` is a natural number below `2 ^ 32`, a `double` is its IEEE-754
  binary64 bit pattern;
* `boost::lexical_cast<double>` performs a decimal to binary conversion that is
  outside the repository: it is a parameter, `castD`, of every definition that
  reaches it; so is the format `%7.2f` of a `double`, the parameter `fmtF` of
  the printer.
-/

namespace BenchmarkTable

/-! ## Strings and failures -/

/-- A `std::string`: a sequence of characters. -/
abbrev Str := List Char

/-- The ways in which a run can stop without producing its result. -/
inductive fault where
  /-- a configuration pair without its separator -/
  | format_error
  /-- an uncaught `boost::bad_lexical_cast` -/
  | bad_lexical_cast
  /-- an access to a `std::vector` at or past its end (undefined behaviour) -/
  | out_of_range
  deriving DecidableEq, Repr

instance instDecidableEqExcept {ε α : Type} [DecidableEq ε] [DecidableEq α] :
    DecidableEq (Except ε α)
  | .ok a, .ok b => if h : a = b then isTrue (by rw [h]) else isFalse (fun e => h (Except.ok.inj e))
  | .error a, .error b =>
    if h : a = b then isTrue (by rw [h]) else isFalse (fun e => h (Except.error.inj e))
  | .ok _, .error _ => isFalse (fun e => nomatch e)
  | .error _, .ok _ => isFalse (fun e => nomatch e)

/-- The write `v[i] = x` on a `std::vector`: defined only for `i < v.size()`. -/
def vector_set {α : Type} (v : List α) (i : Nat) (x : α) : Except fault (List α) :=
  if i < v.length then .ok (v.set i x) else .error .out_of_range

/-! ## Helpers of `core/utils` -/

/-- The pieces of a string between the occurrences of a separator character,
in order; a string without the separator is its own single piece. -/
def split_at_sep (sep : Char) : Str → List Str
  | [] => [[]]
  | c :: cs =>
    if c = sep then [] :: split_at_sep sep cs
    else
      match split_at_sep sep cs with
      | [] => [[c]]
      | p :: ps => (c :: p) :: ps

/-- Modelled from the spec: `foreach_string` of `core/utils/string_utils.hpp`
is not part of the sources at hand. The spec describes the configuration
strings as comma-separated pairs read in order, so the model calls `f` on each
piece between separators, left to right; `f` is the body of the closure, acting
on the state it captures. The source calls it with one-character separators
only. -/
def foreach_string {σ : Type} (str : Str) (sep : Char)
    (f : Str → σ → Except fault σ) (init : σ) : Except fault σ :=
  (split_at_sep sep str).foldlM (fun st s => f s st) init

/-- Modelled from the spec: `split_string_pair` of
`core/utils/string_utils.hpp` is not part of the sources at hand. The spec
says that a pair lacking its separator is a FormatError; otherwise the pair
is what stands before and after the separator (here: its first occurrence). -/
def split_string_pair (s : Str) (sep : Char) : Except fault (Str × Str) :=
  if sep ∈ s then
    .ok (s.takeWhile (fun c => !decide (c = sep)), (s.dropWhile (fun c => !decide (c = sep))).tail)
  else .error .format_error

/-- Modelled from the spec: `first_matches<T>( x )` of
`core/utils/range_utils.hpp` is not part of the sources at hand. It is the
predicate on pairs used for name lookup ("if the captured key matches a
declared global PropertySpec name", the name being the first component of the
pair): true of the pairs whose first component equals `x`. -/
def first_matches {β : Type} (x : Str) (p : Str × β) : Bool :=
  decide (p.1 = x)

/-- The expression `boost::find_if( v, pred ) - v.begin()`: the position of the
first element satisfying the predicate, `v.size()` when there is none. -/
def find_if {α : Type} (v : List α) (pred : α → Bool) : Nat :=
  v.findIdx pred

/-! ## Configuration strings -/

/-- The type `label_type_vector_t`. -/
abbrev label_type_vector_t := List (Str × Char)

/-- The type `columns_vector_t`. -/
abbrev columns_vector_t := List (Str × Str)

/-- The expression `s[0u]` on a `std::string`: the first character, and the
terminating null character when the string is empty. -/
def first_char (s : Str) : Char :=
  s.headD (Char.ofNat 0)

/-- The function `parse_label_type_string`. -/
def parse_label_type_string (str : Str) : Except fault label_type_vector_t :=
  if str.isEmpty then .ok []
  else
    foreach_string str ','
      (fun s vec => do
        let p ← split_string_pair s ':'
        pure (vec ++ [(p.1, first_char p.2)]))
      []

/-- The block "Parse columns" of `main`. -/
def parse_columns (columns : Str) : Except fault columns_vector_t :=
  if columns.isEmpty then .ok []
  else
    foreach_string columns ','
      (fun s vec => do
        let p ← split_string_pair s '='
        pure (vec ++ [p]))
      []

/-! ## Numbers -/

/-- A `double`: its IEEE-754 binary64 bit pattern. -/
structure Double where
  bits : Nat
  deriving DecidableEq, Repr

/-- The value-initialised `double`, `0.0`. -/
def Double.zero : Double := ⟨0⟩

/-- The largest `e ≤ k` with `2 ^ e ≤ n`, and `0` when there is none. -/
def high_bit : Nat → Nat → Nat
  | 0, _ => 0
  | k + 1, n => if 2 ^ (k + 1) ≤ n then k + 1 else high_bit k n

/-- The implicit conversion of an `unsigned` to `double`; it is exact, an
`unsigned` having at most 32 significant bits. -/
def to_double (n : Nat) : Double :=
  if n = 0 then Double.zero
  else ⟨(1023 + high_bit 31 n) * 2 ^ 52 + (n - 2 ^ high_bit 31 n) * 2 ^ (52 - high_bit 31 n)⟩

/-- The value of a decimal digit. -/
def digit_value (c : Char) : Option Nat :=
  if 48 ≤ c.toNat ∧ c.toNat ≤ 57 then some (c.toNat - 48) else none

/-- The value of a run of decimal digits read after the value `acc`; `none` at
the first character that is not a digit. -/
def digits_value : Str → Nat → Option Nat
  | [], acc => some acc
  | c :: cs, acc =>
    match digit_value c with
    | none => none
    | some d => digits_value cs (acc * 10 + d)

/-- The call `boost::lexical_cast<unsigned>( s )`: an optional sign and then
one or more decimal digits, and nothing else; the magnitude has to fit 32 bits
and a minus sign negates it modulo `2 ^ 32`. Anything else throws
`bad_lexical_cast`. -/
def lexical_cast_unsigned (s : Str) : Except fault Nat :=
  let minus := s.head? = some '-'
  let ds := if s.head? = some '-' ∨ s.head? = some '+' then s.tail else s
  if ds.isEmpty then .error .bad_lexical_cast
  else
    match digits_value ds 0 with
    | none => .error .bad_lexical_cast
    | some v =>
      if v < 2 ^ 32 then .ok (if minus then (2 ^ 32 - v) % 2 ^ 32 else v)
      else .error .bad_lexical_cast

/-- The parameter standing for `boost::lexical_cast<double>`. -/
abbrev double_cast := Str → Except fault Double

/-! ## The table -/

/-- The type `entry_t`, `boost::variant<unsigned, double>`. -/
inductive entry_t where
  | uint (u : Nat)
  | dbl (d : Double)
  deriving DecidableEq, Repr

/-- The value-initialised `entry_t`: a variant holds its first alternative. -/
def entry_t.default : entry_t := .uint 0

/-- The type `column_t`, `std::tuple<unsigned, double>`. -/
abbrev column_t := Nat × Double

/-- The value-initialised `column_t`. -/
def column_t_default : column_t := (0, Double.zero)

/-- The element type of `table_t`: name, global entries, local columns. -/
structure row_t where
  name : Str
  globals : List entry_t
  locals : List column_t
  deriving DecidableEq, Repr

/-- The type `table_t`. -/
abbrev table_t := List row_t

/-! ## Regular expressions -/

/-- A `std::smatch` after a successful match: the whole match followed by the
capture groups. -/
abbrev smatch := List Str

/-- The expression `m[i]` read as a string: the empty string for an `i` that is
not below `m.size()`. -/
def sub (m : smatch) (i : Nat) : Str :=
  m.getD i []

/-- A compiled `std::regex`, as the function from a subject to its match. -/
abbrev regex := Str → Option smatch

/-- The characters that `.` does not match. -/
def line_terminator (c : Char) : Bool :=
  decide (c = '\n') || decide (c = '\r')

/-- The regex `^([^:]*): *(.*)$` on a line: the key is what precedes the first
colon, the value what follows the colon and the blanks after it, and must
reach the end of the line without a line terminator. -/
def key_value_regex : regex := fun line =>
  if ':' ∈ line then
    let key := line.takeWhile (fun c => !decide (c = ':'))
    let value := ((line.dropWhile (fun c => !decide (c = ':'))).tail).dropWhile
      (fun c => decide (c = ' '))
    if value.any line_terminator then none else some [line, key, value]
  else none

/-- Modelled from the spec: the treatment of one line by the rule engine of
`core/utils`, which is not part of the sources at hand. By the spec the rules
are tried in order and the handler of the first rule whose pattern matches is
invoked, once; a line that matches no rule is dropped. -/
def apply_rules {σ : Type} (rules : List (regex × (smatch → σ → Except fault σ)))
    (st : σ) (line : Str) : Except fault σ :=
  match rules.findSome? (fun r => (r.1 line).map (fun m => r.2 m)) with
  | none => .ok st
  | some h => h st

/-- Modelled from the spec: the function that `main` calls on the log file
with its list of rules, a helper of `core/utils`, is not part of the sources
at hand. By the spec the lines of the text are treated one after the other.
The text is `none` when the log file is missing, and then no handler is
invoked. -/
def parse_lines {σ : Type} (text : Option (List Str))
    (rules : List (regex × (smatch → σ → Except fault σ))) (init : σ) : Except fault σ :=
  match text with
  | none => .ok init
  | some lines => lines.foldlM (apply_rules rules) init

/-! ## The scan -/

/-- The first statement of the closure that `main` gives as the handler of its
one rule: the lookup of the key among the global properties and the assignment
to the row's global entry. The two branches of the conditional expression have
the types `unsigned` and `double`, so the expression has type `double`: an
`unsigned` result is converted before it is assigned to the variant. -/
def store_global (castD : double_cast) (globals : label_type_vector_t) (m : smatch)
    (row_globals : List entry_t) : Except fault (List entry_t) :=
  let it := find_if globals (first_matches (sub m 1))
  match globals[it]? with
  | some spec => do
    let v ← if spec.2 = 'u' then (lexical_cast_unsigned (sub m 2)).map to_double
            else castD (sub m 2)
    vector_set row_globals it (entry_t.dbl v)
  | none => .ok row_globals

/-- The second statement of the closure: the keys `Runtime` and `Gates`, stored
into the scratch `entry`. -/
def store_local (castD : double_cast) (m : smatch) (entry : column_t) :
    Except fault column_t :=
  if sub m 1 = "Runtime".toList then do
    let d ← castD (sub m 2)
    pure (entry.1, d)
  else if sub m 1 = "Gates".toList then do
    let u ← lexical_cast_unsigned (sub m 2)
    pure (u, entry.2)
  else .ok entry

/-- The closure that `main` gives as the handler of its one rule; it captures
the row's global entries and the scratch `entry`, which are its state. -/
def log_handler (castD : double_cast) (globals : label_type_vector_t) (m : smatch)
    (st : List entry_t × column_t) : Except fault (List entry_t × column_t) := do
  let row_globals ← store_global castD globals m st.1
  let entry ← store_local castD m st.2
  pure (row_globals, entry)

/-- A directory entry as the scan sees it: the outcome of `std::regex_match` of
the pattern on its file name and the lines of the log file next to it, if that
file exists. -/
structure dir_entry where
  m : Option smatch
  log : Option (List Str)
  deriving DecidableEq, Repr

/-- The tuple appended to the table when a row is created: the name, one
value-initialised entry per global property and `has_column_id ?
columns_vector.size() : 1u` value-initialised local columns. -/
def new_row (globals : label_type_vector_t) (columns_vector : columns_vector_t)
    (m : smatch) : row_t :=
  let has_column_id := m.length == 3
  { name := sub m 1
    globals := List.replicate globals.length entry_t.default
    locals := List.replicate (if has_column_id then columns_vector.length else 1)
      column_t_default }

/-- The block "add or retrieve row": the table afterwards and the position of
the row `prow` points to. -/
def add_or_retrieve_row (globals : label_type_vector_t) (columns_vector : columns_vector_t)
    (table : table_t) (m : smatch) : table_t × Nat :=
  let it := find_if table (fun row => decide (row.name = sub m 1))
  if it = table.length then (table ++ [new_row globals columns_vector m], table.length)
  else (table, it)

/-- The variable `index` of `main`. -/
def column_index (columns_vector : columns_vector_t) (m : smatch) : Nat :=
  if m.length == 3 then find_if columns_vector (first_matches (sub m 2)) else 0

/-- The body of the loop over the directory, for one entry. -/
def process_entry (castD : double_cast) (globals : label_type_vector_t)
    (columns_vector : columns_vector_t) (table : table_t) (f : dir_entry) :
    Except fault table_t :=
  match f.m with
  | none => .ok table
  | some m =>
    let tp := add_or_retrieve_row globals columns_vector table m
    let index := column_index columns_vector m
    match tp.1[tp.2]? with
    | none => .error .out_of_range
    | some row => do
      let st ← parse_lines f.log [(key_value_regex, log_handler castD globals)]
        (row.globals, column_t_default)
      let locals ← vector_set row.locals index st.2
      pure (tp.1.set tp.2 { row with globals := st.1, locals := locals })

/-- The loop over the directory: the table it leaves. -/
def scan (castD : double_cast) (globals : label_type_vector_t)
    (columns_vector : columns_vector_t) (dir : List dir_entry) : Except fault table_t :=
  dir.foldlM (process_entry castD globals columns_vector) []

/-- The part of `main` from the parsing of the configuration strings to the
end of the scan: the table that is then printed. -/
def main_table (castD : double_cast) (columns global loc : Str) (dir : List dir_entry) :
    Except fault table_t := do
  let columns_vector ← parse_columns columns
  let globals ← parse_label_type_string global
  let _locals ← parse_label_type_string loc
  scan castD globals columns_vector dir

/-- The log of Scenario C. -/
def scenario_c_log : List Str :=
  ["Gates: 42".toList, "Runtime: 3.5".toList, "Lines: 100".toList]

/-- The directory of Scenario C: the file `adder.real`, matched by the default
pattern, and its log. -/
def scenario_c_dir : List dir_entry :=
  [⟨some ["adder.real".toList, "adder".toList], some scenario_c_log⟩]

/-- A stand-in for `boost::lexical_cast<double>` that knows the text `3.5`
only. -/
def cast_3_5 : double_cast := fun s =>
  if s = "3.5".toList then .ok ⟨0x400C000000000000⟩ else .error .bad_lexical_cast

/-- The number of local columns the printing loop of `main` reads from every
row: `columns.empty() ? 1u : columns_vector.size()`. -/
def printed_columns (columns : Str) (columns_vector : columns_vector_t) : Nat :=
  if columns.isEmpty then 1 else columns_vector.length

/-! ## The fixed-format printer of `main` -/

/-- The parameter standing for `boost::format( "%7.2f" )` applied to a
`double`: the conversion of a floating-point number to text is outside the
repository. -/
abbrev float_format := Double → Str

/-- A field of `boost::format` with a width: the text is written after as many
blanks as it is shorter than the width, and as it is when it is longer. -/
def pad_left (w : Nat) (s : Str) : Str :=
  List.replicate (w - s.length) ' ' ++ s

/-- The field `%10d` of `boost::format` applied to an `unsigned`: its decimal
digits in a field of the given width. -/
def format_unsigned (w : Nat) (u : Nat) : Str :=
  pad_left w (Nat.toDigits 10 u)

/-- The body of the loop over the global entries of a row: `"%10d |"` for an
entry that holds an `unsigned`, `"%7.2f |"` for one that holds a `double`. -/
def print_global (fmtF : float_format) : entry_t → Str
  | .uint u => format_unsigned 10 u ++ " |".toList
  | .dbl d => fmtF d ++ " |".toList

/-- The loop over the global entries of a row. -/
def print_globals (fmtF : float_format) : List entry_t → Str
  | [] => []
  | entry :: rest => print_global fmtF entry ++ print_globals fmtF rest

/-- The format `" %10d | %7.2f |"` applied to a local column. -/
def print_local (fmtF : float_format) (c : column_t) : Str :=
  ' ' :: format_unsigned 10 c.1 ++ " | ".toList ++ fmtF c.2 ++ " |".toList

/-- The loop `for ( i = 0u; i < n; ++i )` over the local columns of a row, with
`k` rounds left from the index `i` on; it reads `locals[i]`. -/
def print_locals (fmtF : float_format) (locals : List column_t) : Nat → Nat → Except fault Str
  | 0, _ => .ok []
  | k + 1, i =>
    match locals[i]? with
    | none => .error .out_of_range
    | some c => do
      let rest ← print_locals fmtF locals k (i + 1)
      pure (print_local fmtF c ++ rest)

/-- The body of the loop "Print table": the line of a row, without its end of
line. -/
def print_table_row (fmtF : float_format) (columns : Str) (columns_vector : columns_vector_t)
    (row : row_t) : Except fault Str := do
  let locals ← print_locals fmtF row.locals (printed_columns columns columns_vector) 0
  pure ("| ".toList ++ pad_left 20 row.name ++ " |".toList ++ print_globals fmtF row.globals
    ++ locals)

/-- The loop "Print table": the lines written to the standard output. -/
def print_table (fmtF : float_format) (columns : Str) (columns_vector : columns_vector_t)
    (table : table_t) : Except fault (List Str) :=
  table.mapM (print_table_row fmtF columns columns_vector)

/-- The whole of `main` after the parsing of the options: the lines it writes.
The column spec is parsed once in the source; the model parses it again for
the printer, with the same result. -/
def main_output (castD : double_cast) (fmtF : float_format) (columns global loc : Str)
    (dir : List dir_entry) : Except fault (List Str) := do
  let table ← main_table castD columns global loc dir
  let columns_vector ← parse_columns columns
  print_table fmtF columns columns_vector table

/-- A stand-in for the format `%7.2f` that knows zero and `3.5` only. -/
def format_3_5 : float_format := fun d =>
  if d.bits = 0x400C000000000000 then "   3.50".toList
  else if d.bits = 0 then "   0.00".toList
  else "      ?".toList

/-! ## The generic renderer of `test/benchmark_table.hpp` -/

/-- A field of a row of the generic table: the header is used with strings and
unsigned integers. -/
inductive field where
  | str (s : Str)
  | uns (n : Nat)
  deriving DecidableEq, Repr

/-- The call `boost::lexical_cast<std::string>( value )`: a string is itself,
an unsigned integer its decimal digits. -/
def lexical_cast_string : field → Str
  | .str s => s
  | .uns n => Nat.toDigits 10 n

/-- The class `benchmark_table`; a row of `results` is the list of its fields.
Sizes of strings are kept as natural numbers: the narrowing to `unsigned` is
the identity on every string shorter than `2 ^ 32` characters. -/
structure benchmark_table where
  _column_names : List Str
  results : List (List field)
  lengths : List Nat
  length_i : Nat
  deriving DecidableEq, Repr

/-- The constructor of `benchmark_table`. It leaves `length_i` without a
value; the member is assigned by `add` before it is first read, and is `0`
here. -/
def benchmark_table.create (column_names : List Str) : benchmark_table :=
  { _column_names := column_names
    results := []
    lengths := column_names.map List.length
    length_i := 0 }

/-- The member function `add_length`. -/
def benchmark_table.add_length (t : benchmark_table) (value : field) :
    Except fault benchmark_table :=
  let l := (lexical_cast_string value).length
  match t.lengths[t.length_i]? with
  | none => .error .out_of_range
  | some w =>
    let lengths := if l > w then t.lengths.set t.length_i l else t.lengths
    .ok { t with lengths := lengths, length_i := t.length_i + 1 }

/-- The member function `compute_lengths`, over the arguments that are left.
The source ends the recursion at the last argument; no call is possible
without an argument, and the model does nothing for one. -/
def benchmark_table.compute_lengths (t : benchmark_table) :
    List field → Except fault benchmark_table
  | [] => .ok t
  | head :: tail => do
    let t ← t.add_length head
    t.compute_lengths tail

/-- The member function `add`. -/
def benchmark_table.add (t : benchmark_table) (args : List field) :
    Except fault benchmark_table :=
  benchmark_table.compute_lengths
    { t with results := t.results ++ [args], length_i := 0 } args

/-- The effect of `std::setw( w )` on the next string written: blanks on the
left up to the width `w`, and the string as it is when it is longer. -/
def setw (w : Nat) (s : Str) : Str :=
  List.replicate (w - s.length) ' ' ++ s

/-- The cell `"| " << std::setw( column_lengths[N] ) << value`, without what
follows it. -/
def print_cell (column_lengths : List Nat) (N : Nat) (s : Str) : Except fault Str :=
  match column_lengths[N]? with
  | none => .error .out_of_range
  | some w => .ok ('|' :: ' ' :: setw w s)

/-- The function `print_row_t<TupleT, N, ...>::print` over the fields from
position `N` on: the line of the row, without its end of line. -/
def print_row_t (column_lengths : List Nat) : Nat → List field → Except fault Str
  | _, [] => .ok []
  | N, [x] => do
    let c ← print_cell column_lengths N (lexical_cast_string x)
    pure (c ++ [' ', '|'])
  | N, x :: y :: rest => do
    let c ← print_cell column_lengths N (lexical_cast_string x)
    let r ← print_row_t column_lengths (N + 1) (y :: rest)
    pure (c ++ ' ' :: r)

/-- The loop of `print` over the column names: the header line without its
closing bar. -/
def print_header (t : benchmark_table) : Nat → List Str → Except fault Str
  | _, [] => .ok []
  | n, name :: names => do
    let c ← print_cell t.lengths n name
    let r ← print_header t (n + 1) names
    pure (c ++ ' ' :: r)

/-- The member function `print`: the lines written to the standard output. -/
def benchmark_table.print (t : benchmark_table) : Except fault (List Str) := do
  let header ← print_header t 0 t._column_names
  let rows ← t.results.mapM (fun result => print_row_t t.lengths 0 result)
  pure ((header ++ ['|']) :: rows)

/-- A directory in which two files carry the benchmark name `adder` and one
the name `mult`, under a pattern with one capture group. -/
def three_files_dir : List dir_entry :=
  [⟨some ["adder.real".toList, "adder".toList], some scenario_c_log⟩,
   ⟨some ["mult.real".toList, "mult".toList], some ["Gates: 7".toList]⟩,
   ⟨none, none⟩,
   ⟨some ["adder.real".toList, "adder".toList], some ["Lines: 5".toList, "no colon".toList]⟩]

/-- The entry of Scenario C: the file `adder.real` and its log. -/
def scenario_c_entry : dir_entry :=
  ⟨some ["adder.real".toList, "adder".toList], some scenario_c_log⟩

/-- The column spec `00=Col 1,01=Col 2`, parsed. -/
def two_columns : columns_vector_t :=
  [("00".toList, "Col 1".toList), ("01".toList, "Col 2".toList)]

/-- The match of a pattern with two capture groups on `adder-01.real`. -/
def adder_01 : smatch :=
  ["adder-01.real".toList, "adder".toList, "01".toList]

/-- A directory under a pattern with two capture groups: the file
`adder-00.real`, whose log reports 7 gates. -/
def column_00_dir : List dir_entry :=
  [⟨some ["adder-00.real".toList, "adder".toList, "00".toList], some ["Gates: 7".toList]⟩]

/-- The table left by the scan of `column_00_dir` with the columns
`two_columns` and the global spec `Lines:u`. -/
def column_00_table : table_t :=
  [⟨"adder".toList, [entry_t.uint 0], [(7, Double.zero), (0, Double.zero)]⟩]

/-- The file `adder-01.real`, whose log reports 9 gates and the run time
`3.5`. -/
def column_01_entry : dir_entry :=
  ⟨some adder_01, some ["Gates: 9".toList, "Runtime: 3.5".toList]⟩

/-- The table after `column_01_entry` has been processed on
`column_00_table`. -/
def column_01_table : table_t :=
  [⟨"adder".toList, [entry_t.uint 0], [(7, Double.zero), (9, ⟨0x400C000000000000⟩)]⟩]

/-! ## Vocabulary of the statements -/

/-- The strings of a list written one after the other with a separator
character between them. -/
def join_with (sep : Char) : List Str → Str
  | [] => []
  | [x] => x
  | x :: y :: rest => x ++ sep :: join_with sep (y :: rest)

/-- The text `a<sep>b` of a pair. -/
def pair_text (sep : Char) (p : Str × Str) : Str :=
  p.1 ++ sep :: p.2

/-- The value text of a line of the shape `key: value` for the given key, and
`none` for any other line. -/
def key_value (key : Str) (line : Str) : Option Str :=
  match key_value_regex line with
  | some m => if sub m 1 = key then some (sub m 2) else none
  | none => none

/-- The value text of the last line of a log that has the given key: that of
the last such line after the first line, and else that of the first line. -/
def last_value (key : Str) : List Str → Option Str
  | [] => none
  | line :: rest =>
    match last_value key rest with
    | some t => some t
    | none => key_value key line

/-- The lines of a log, none for a missing log file. -/
def log_lines (f : dir_entry) : List Str :=
  f.log.getD []

/-- The effect of one line of a log on the state of the handler of `main`. -/
def log_step (castD : double_cast) (globals : label_type_vector_t)
    (st : List entry_t × column_t) (line : Str) : Except fault (List entry_t × column_t) :=
  match key_value_regex line with
  | none => .ok st
  | some m => log_handler castD globals m st

/-- The rows given to `add` one after the other. -/
def benchmark_table.add_all (t : benchmark_table) (rows : List (List field)) :
    Except fault benchmark_table :=
  rows.foldlM benchmark_table.add t

/-- The length of the stringified field `i` of a row. -/
def cell_length (row : List field) (i : Nat) : Nat :=
  match row[i]? with
  | some a => (lexical_cast_string a).length
  | none => 0

/-- The maximum of the length of label `i` and of the lengths of the
stringified field `i` of the rows. -/
def column_width (column_names : List Str) (rows : List (List field)) (i : Nat) : Nat :=
  rows.foldl (fun w row => max w (cell_length row i)) (column_names.getD i []).length

/-- A table of two columns and a row of two fields for it. -/
def name_gates_table : benchmark_table :=
  benchmark_table.create ["name".toList, "n".toList]

/-- Two rows for `name_gates_table`. -/
def name_gates_rows : List (List field) :=
  [[field.str "adder".toList, field.uns 1234], [field.str "x".toList, field.uns 5]]

/-- The decimal digits. -/
def decimal_digits : Str :=
  "0123456789".toList

/-- The match of a pattern with two capture groups on `adder-02.real`; no
column of `two_columns` has the id `02`. -/
def adder_02 : smatch :=
  ["adder-02.real".toList, "adder".toList, "02".toList]

/-- A directory whose first log has a `Gates` line that is not a number, after
one that is, and whose second log is well formed. -/
def bad_gates_dir : List dir_entry :=
  [⟨some ["adder.real".toList, "adder".toList],
      some ["Gates: 7".toList, "Gates: foo".toList]⟩,
   ⟨some ["mult.real".toList, "mult".toList], some ["Gates: 3".toList]⟩]

/-- The value text of a matched line cannot be converted to the numeric type
that its key asks for: the type by the tag of the global property found for
the key (`unsigned` for `u`, `double` otherwise), `double` for the key
`Runtime`, `unsigned` for the key `Gates`. -/
def conversion_failure (castD : double_cast) (globals : label_type_vector_t) (m : smatch) :
    Prop :=
  (∃ spec, globals[find_if globals (first_matches (sub m 1))]? = some spec
      ∧ ((spec.2 = 'u' ∧ ∃ e, lexical_cast_unsigned (sub m 2) = .error e)
        ∨ (spec.2 ≠ 'u' ∧ ∃ e, castD (sub m 2) = .error e)))
    ∨ (sub m 1 = "Runtime".toList ∧ ∃ e, castD (sub m 2) = .error e)
    ∨ (sub m 1 = "Gates".toList ∧ ∃ e, lexical_cast_unsigned (sub m 2) = .error e)

/-- The key of a line: the text before its first colon. -/
def line_key (line : Str) : Str :=
  line.takeWhile (fun c => !decide (c = ':'))

/-- The conversion of a value text for a global property: to `unsigned` and
from there to `double` for the tag `u`, to `double` for any other tag. -/
def global_conversion (castD : double_cast) (spec : Str × Char) (t : Str) :
    Except fault Double :=
  if spec.2 = 'u' then (lexical_cast_unsigned t).map to_double else castD t

/-- The match of the line `Runtime: 3.5`. -/
def runtime_3_5 : smatch :=
  ["Runtime: 3.5".toList, "Runtime".toList, "3.5".toList]

/-- The value text of a line whose key is looked up to the position `i` of
the global properties, and `none` for any other line. -/
def slot_value (globals : label_type_vector_t) (i : Nat) (line : Str) : Option Str :=
  match key_value_regex line with
  | some m => if find_if globals (first_matches (sub m 1)) = i then some (sub m 2) else none
  | none => none

/-- The value text of the last line of a log whose key is looked up to the
position `i` of the global properties. -/
def last_slot_value (globals : label_type_vector_t) (i : Nat) : List Str → Option Str
  | [] => none
  | line :: rest =>
    match last_slot_value globals i rest with
    | some t => some t
    | none => slot_value globals i line

/-- A global spec that declares the name `Lines` twice. -/
def lines_twice : label_type_vector_t :=
  [("Lines".toList, 'u'), ("Lines".toList, 'u')]

/-- A directory with two files of the benchmark `adder`: the log of the first
is empty, the log of the second reports 5 lines. -/
def adder_twice_dir : List dir_entry :=
  [⟨some ["adder.real".toList, "adder".toList], some []⟩,
   ⟨some ["adder.real".toList, "adder".toList], some ["Lines: 5".toList]⟩]

/-- A computation does not end in an out-of-range access, and its result, if
it has one, satisfies `P`. -/
def in_bounds {α : Type} (x : Except fault α) (P : α → Prop) : Prop :=
  match x with
  | .ok a => P a
  | .error e => e ≠ .out_of_range

/-- Every row of a table has one global entry per global property and `n`
local columns. -/
def rows_sized (globals : label_type_vector_t) (n : Nat) (table : table_t) : Prop :=
  ∀ row ∈ table, row.globals.length = globals.length ∧ row.locals.length = n

/-- A cell of an aligned line: a bar, a blank, the text right-justified in the
width of its column, a blank. -/
def aligned_cell (w : Nat) (s : Str) : Str :=
  '|' :: ' ' :: (List.replicate (w - s.length) ' ' ++ s ++ [' '])

/-- A line of an aligned grid: one cell per column and a closing bar. -/
def aligned_line : List Nat → List Str → Str
  | w :: ws, c :: cs => aligned_cell w c ++ aligned_line ws cs
  | _, _ => ['|']

/-- The length of a line of a grid with the given column widths: the sum over
the columns of the width plus 3, plus 1. -/
def line_width (widths : List Nat) : Nat :=
  (widths.map (fun w => w + 3)).sum + 1

/-- The offset of the bar in front of column `i`, and of the closing bar for
`i` the number of columns. -/
def bar_offset (widths : List Nat) (i : Nat) : Nat :=
  ((widths.take i).map (fun w => w + 3)).sum

/-- Every text is at most as long as the width of its column, and there are as
many texts as widths. -/
def fits : List Nat → List Str → Prop
  | w :: ws, c :: cs => c.length ≤ w ∧ fits ws cs
  | [], [] => True
  | _, _ => False

/-- Every text that has a column is at most as long as the width of that
column. -/
def fits_pointwise (ws : List Nat) (cs : List Str) : Prop :=
  ∀ (j w : Nat) (c : Str), ws[j]? = some w → cs[j]? = some c → c.length ≤ w

/-- The row `adder`, 1234. -/
def adder_1234 : List field :=
  [field.str "adder".toList, field.uns 1234]

/-! # Theorems -/

/-! ## Splitting and joining -/

theorem split_at_sep_ne_nil (sep : Char) (s : Str) : split_at_sep sep s ≠ [] := by
  cases s with
  | nil => simp [split_at_sep]
  | cons c cs =>
    simp only [split_at_sep]
    split
    · simp
    · split <;> simp

theorem split_at_sep_of_not_mem (sep : Char) (p : Str) (h : sep ∉ p) :
    split_at_sep sep p = [p] := by
  induction p with
  | nil => rfl
  | cons c cs ih =>
    have hc : c ≠ sep := fun e => h (by simp [e])
    have hcs : sep ∉ cs := fun e => h (by simp [e])
    simp [split_at_sep, hc, ih hcs]

theorem split_at_sep_append (sep : Char) (p rest : Str) (h : sep ∉ p) :
    split_at_sep sep (p ++ sep :: rest) = p :: split_at_sep sep rest := by
  induction p with
  | nil => simp [split_at_sep]
  | cons c cs ih =>
    have hc : c ≠ sep := fun e => h (by simp [e])
    have hcs : sep ∉ cs := fun e => h (by simp [e])
    simp [split_at_sep, hc, ih hcs]

theorem split_at_sep_join_with (sep : Char) (ps : List Str) (hne : ps ≠ [])
    (h : ∀ p ∈ ps, sep ∉ p) : split_at_sep sep (join_with sep ps) = ps := by
  induction ps with
  | nil => exact absurd rfl hne
  | cons x rest ih =>
    cases rest with
    | nil => exact split_at_sep_of_not_mem sep x (h x (by simp))
    | cons y rest =>
      have hx : sep ∉ x := h x (by simp)
      have hr : ∀ p ∈ y :: rest, sep ∉ p := fun p hp => h p (List.mem_cons_of_mem _ hp)
      simp only [join_with]
      rw [split_at_sep_append sep x _ hx, ih (by simp) hr]

theorem split_string_pair_pair_text (sep : Char) (a b : Str) (h : sep ∉ a) :
    split_string_pair (pair_text sep (a, b)) sep = .ok (a, b) := by
  have hmem : sep ∈ a ++ sep :: b := by simp
  have h1 : ∀ c ∈ a, (!decide (c = sep)) = true := by
    intro c hc
    have : c ≠ sep := fun e => h (e ▸ hc)
    simp [this]
  have htake : (a ++ sep :: b).takeWhile (fun c => !decide (c = sep)) = a := by
    rw [List.takeWhile_append_of_pos h1]
    simp [List.takeWhile]
  have hdrop : (a ++ sep :: b).dropWhile (fun c => !decide (c = sep)) = sep :: b := by
    rw [List.dropWhile_append_of_pos h1]
    simp [List.dropWhile]
  simp only [split_string_pair, pair_text, hmem, if_true, htake, hdrop, List.tail_cons]

/-- A `foreach_string` whose closure appends one element per piece returns the
elements of all pieces, in order, when the closure succeeds on every piece. -/
theorem foldlM_collect {α β : Type} (g : Str → Except fault α) (k : Str → α) (h : α → β)
    (l : List Str) (hg : ∀ s ∈ l, g s = .ok (k s)) (init : List β) :
    l.foldlM (fun (vec : List β) s => do
        let p ← g s
        pure (vec ++ [h p])) init
      = .ok (init ++ l.map (fun s => h (k s))) := by
  induction l generalizing init with
  | nil => simp [pure, Except.pure]
  | cons s rest ih =>
    have hs : g s = .ok (k s) := hg s (by simp)
    have hr : ∀ t ∈ rest, g t = .ok (k t) := fun t ht => hg t (List.mem_cons_of_mem _ ht)
    have e := ih hr (init ++ [h (k s)])
    rw [List.foldlM_cons]
    simp only [hs, bind, Except.bind, pure, Except.pure] at e ⊢
    rw [e]
    simp

theorem join_with_eq_nil (sep : Char) (ps : List Str) (h : join_with sep ps = []) :
    ps = [] ∨ ps = [[]] := by
  cases ps with
  | nil => exact Or.inl rfl
  | cons x rest =>
    cases rest with
    | nil => right; simpa [join_with] using h
    | cons y rest => simp [join_with] at h

/-- The result of a successful `split_string_pair`, and a pair of empty strings
otherwise. -/
theorem split_string_pair_eq_ok_get (sep : Char) (s : Str) (p : Str × Str)
    (h : split_string_pair s sep = .ok p) :
    split_string_pair s sep
      = .ok (match split_string_pair s sep with
        | .ok q => q
        | .error _ => ([], [])) := by
  rw [h]

theorem not_mem_pair_text (c sep : Char) (p : Str × Str) (h1 : c ∉ p.1) (h2 : c ∉ p.2)
    (hc : c ≠ sep) : c ∉ pair_text sep p := by
  simp [pair_text, h1, h2, hc]

theorem join_with_pair_text_ne_nil (sep sep2 : Char) (x : Str × Str) (rest : List (Str × Str)) :
    join_with sep ((x :: rest).map (pair_text sep2)) ≠ [] := by
  intro h
  rcases join_with_eq_nil sep _ h with h | h
  · simp at h
  · simp [pair_text] at h

/-- Parsing the text of a list of pairs with `foreach_string` and
`split_string_pair` gives the images of the pairs back, in order. -/
theorem foreach_pairs {β : Type} (sep sep2 : Char) (hsep : sep ≠ sep2)
    (h : Str × Str → β) (pairs : List (Str × Str))
    (hp : ∀ p ∈ pairs, sep ∉ p.1 ∧ sep2 ∉ p.1 ∧ sep ∉ p.2)
    (hne : pairs ≠ []) :
    foreach_string (join_with sep (pairs.map (pair_text sep2))) sep
      (fun s (vec : List β) => do
        let p ← split_string_pair s sep2
        pure (vec ++ [h p])) []
      = .ok (pairs.map h) := by
  have hsplit : split_at_sep sep (join_with sep (pairs.map (pair_text sep2)))
      = pairs.map (pair_text sep2) := by
    apply split_at_sep_join_with
    · simpa using hne
    · intro s hs
      obtain ⟨p, hpm, rfl⟩ := List.mem_map.1 hs
      exact not_mem_pair_text sep sep2 p (hp p hpm).1 (hp p hpm).2.2 hsep
  unfold foreach_string
  rw [hsplit]
  have hcol := foldlM_collect (fun s => split_string_pair s sep2)
    (fun s => match split_string_pair s sep2 with
      | .ok q => q
      | .error _ => ([], []))
    h (pairs.map (pair_text sep2))
    (by
      intro s hs
      obtain ⟨p, hpm, rfl⟩ := List.mem_map.1 hs
      exact split_string_pair_eq_ok_get sep2 _ (p.1, p.2)
        (split_string_pair_pair_text sep2 p.1 p.2 (hp p hpm).2.1))
    []
  rw [hcol]
  simp only [List.nil_append, List.map_map]
  congr 1
  apply List.map_congr_left
  intro p hpm
  simp only [Function.comp]
  rw [split_string_pair_pair_text sep2 p.1 p.2 (hp p hpm).2.1]

/-! ## The scan, one entry at a time -/

theorem add_or_retrieve_row_of_not_mem (globals : label_type_vector_t)
    (columns_vector : columns_vector_t) (table : table_t) (m : smatch)
    (h : sub m 1 ∉ table.map row_t.name) :
    add_or_retrieve_row globals columns_vector table m
      = (table ++ [new_row globals columns_vector m], table.length) := by
  have hf : find_if table (fun row => decide (row.name = sub m 1)) = table.length := by
    unfold find_if
    rw [List.findIdx_eq_length]
    intro x hx
    have : x.name ≠ sub m 1 := fun e => h (List.mem_map.2 ⟨x, hx, e⟩)
    simp [this]
  simp [add_or_retrieve_row, hf]

theorem add_or_retrieve_row_of_mem (globals : label_type_vector_t)
    (columns_vector : columns_vector_t) (table : table_t) (m : smatch)
    (h : sub m 1 ∈ table.map row_t.name) :
    add_or_retrieve_row globals columns_vector table m
        = (table, find_if table (fun row => decide (row.name = sub m 1)))
      ∧ find_if table (fun row => decide (row.name = sub m 1)) < table.length := by
  have hlt : find_if table (fun row => decide (row.name = sub m 1)) < table.length := by
    unfold find_if
    rw [List.findIdx_lt_length]
    obtain ⟨x, hx, e⟩ := List.mem_map.1 h
    exact ⟨x, hx, by simp [e]⟩
  refine ⟨?_, hlt⟩
  simp [add_or_retrieve_row, Nat.ne_of_lt hlt]

/-- The row `prow` points to exists and carries the captured name. -/
theorem prow_spec (globals : label_type_vector_t) (columns_vector : columns_vector_t)
    (table : table_t) (m : smatch) :
    ∃ row, (add_or_retrieve_row globals columns_vector table m).1[
        (add_or_retrieve_row globals columns_vector table m).2]? = some row
      ∧ row.name = sub m 1 := by
  by_cases h : sub m 1 ∈ table.map row_t.name
  · obtain ⟨e, hlt⟩ := add_or_retrieve_row_of_mem globals columns_vector table m h
    rw [e]
    refine ⟨table[find_if table (fun row => decide (row.name = sub m 1))], ?_, ?_⟩
    · exact List.getElem?_eq_getElem hlt
    · have hlt2 : List.findIdx (fun row : row_t => decide (row.name = sub m 1)) table
          < table.length := hlt
      have := @List.findIdx_getElem _ (fun row : row_t => decide (row.name = sub m 1)) table hlt2
      simpa [find_if] using this
  · rw [add_or_retrieve_row_of_not_mem globals columns_vector table m h]
    exact ⟨new_row globals columns_vector m, by simp, rfl⟩

/-- What a successful `process_entry` on a matched entry has done. -/
theorem process_entry_ok_inv (castD : double_cast) (globals : label_type_vector_t)
    (columns_vector : columns_vector_t) (table table1 : table_t) (f : dir_entry) (m : smatch)
    (hm : f.m = some m)
    (h : process_entry castD globals columns_vector table f = .ok table1) :
    ∃ row st,
      (add_or_retrieve_row globals columns_vector table m).1[
        (add_or_retrieve_row globals columns_vector table m).2]? = some row
      ∧ parse_lines f.log [(key_value_regex, log_handler castD globals)]
          (row.globals, column_t_default) = .ok st
      ∧ column_index columns_vector m < row.locals.length
      ∧ table1 = (add_or_retrieve_row globals columns_vector table m).1.set
          (add_or_retrieve_row globals columns_vector table m).2
          { row with
            globals := st.1
            locals := row.locals.set (column_index columns_vector m) st.2 } := by
  obtain ⟨row, hrow, _⟩ := prow_spec globals columns_vector table m
  simp only [process_entry, hm, hrow, bind, Except.bind, pure, Except.pure] at h
  cases hp : parse_lines f.log [(key_value_regex, log_handler castD globals)]
      (row.globals, column_t_default) with
  | error e => rw [hp] at h; cases h
  | ok st =>
    rw [hp] at h
    simp only [vector_set] at h
    by_cases hlt : column_index columns_vector m < row.locals.length
    · simp only [hlt, if_true] at h
      exact ⟨row, st, hrow, hp, hlt, (Except.ok.inj h).symm⟩
    · simp only [hlt, if_false] at h
      cases h

/-- The converse: a matched entry whose log is read without failure and whose
column index is in range is processed. -/
theorem process_entry_ok (castD : double_cast) (globals : label_type_vector_t)
    (columns_vector : columns_vector_t) (table : table_t) (f : dir_entry) (m : smatch)
    (row : row_t) (st : List entry_t × column_t) (hm : f.m = some m)
    (hrow : (add_or_retrieve_row globals columns_vector table m).1[
        (add_or_retrieve_row globals columns_vector table m).2]? = some row)
    (hp : parse_lines f.log [(key_value_regex, log_handler castD globals)]
          (row.globals, column_t_default) = .ok st)
    (hlt : column_index columns_vector m < row.locals.length) :
    process_entry castD globals columns_vector table f
      = .ok ((add_or_retrieve_row globals columns_vector table m).1.set
          (add_or_retrieve_row globals columns_vector table m).2
          { row with
            globals := st.1
            locals := row.locals.set (column_index columns_vector m) st.2 }) := by
  simp only [process_entry, hm, hrow, bind, Except.bind, pure, Except.pure, hp, vector_set,
    hlt, if_true]

theorem map_set_of_eq {α β : Type} (g : α → β) (l : List α) (i : Nat) (a b : α)
    (h : l[i]? = some a) (hg : g b = g a) : (l.set i b).map g = l.map g := by
  induction l generalizing i with
  | nil => simp
  | cons x rest ih =>
    cases i with
    | zero =>
      simp only [List.getElem?_cons_zero, Option.some.injEq] at h
      simp [hg, h]
    | succ i =>
      simp only [List.getElem?_cons_succ] at h
      simp [ih i h]

/-- The names of the table after an entry: those before it, followed by the
captured name when it was not among them. -/
theorem process_entry_names (castD : double_cast) (globals : label_type_vector_t)
    (columns_vector : columns_vector_t) (table table1 : table_t) (f : dir_entry) (m : smatch)
    (hm : f.m = some m)
    (h : process_entry castD globals columns_vector table f = .ok table1) :
    table1.map row_t.name
      = if sub m 1 ∈ table.map row_t.name then table.map row_t.name
        else table.map row_t.name ++ [sub m 1] := by
  obtain ⟨row, st, hrow, _, _, rfl⟩ :=
    process_entry_ok_inv castD globals columns_vector table table1 f m hm h
  obtain ⟨row2, hrow2, hname⟩ := prow_spec globals columns_vector table m
  rw [hrow] at hrow2
  cases Option.some.inj hrow2
  rw [map_set_of_eq row_t.name _ _ row
    ⟨row.name, st.1, row.locals.set (column_index columns_vector m) st.2⟩ hrow rfl]
  by_cases hmem : sub m 1 ∈ table.map row_t.name
  · rw [(add_or_retrieve_row_of_mem globals columns_vector table m hmem).1]
    simp only [if_pos hmem]
  · rw [add_or_retrieve_row_of_not_mem globals columns_vector table m hmem]
    simp only [if_neg hmem, List.map_append, List.map_cons, List.map_nil, new_row]

theorem process_entry_none (castD : double_cast) (globals : label_type_vector_t)
    (columns_vector : columns_vector_t) (table : table_t) (f : dir_entry) (hm : f.m = none) :
    process_entry castD globals columns_vector table f = .ok table := by
  simp only [process_entry, hm]

theorem process_entry_nodup (castD : double_cast) (globals : label_type_vector_t)
    (columns_vector : columns_vector_t) (table table1 : table_t) (f : dir_entry)
    (hn : (table.map row_t.name).Nodup)
    (h : process_entry castD globals columns_vector table f = .ok table1) :
    (table1.map row_t.name).Nodup := by
  cases hm : f.m with
  | none =>
    rw [process_entry_none castD globals columns_vector table f hm] at h
    cases h
    exact hn
  | some m =>
    rw [process_entry_names castD globals columns_vector table table1 f m hm h]
    by_cases hmem : sub m 1 ∈ table.map row_t.name
    · simpa only [if_pos hmem] using hn
    · simp only [if_neg hmem]
      exact List.Nodup.append hn (List.nodup_singleton _) (by simpa using hmem)

theorem foldlM_process_entry_nodup (castD : double_cast) (globals : label_type_vector_t)
    (columns_vector : columns_vector_t) (dir : List dir_entry) (table table1 : table_t)
    (hn : (table.map row_t.name).Nodup)
    (h : dir.foldlM (process_entry castD globals columns_vector) table = .ok table1) :
    (table1.map row_t.name).Nodup := by
  induction dir generalizing table with
  | nil =>
    simp only [List.foldlM_nil, pure, Except.pure] at h
    cases h
    exact hn
  | cons f rest ih =>
    rw [List.foldlM_cons] at h
    cases hp : process_entry castD globals columns_vector table f with
    | error e => simp [hp, bind, Except.bind] at h
    | ok t =>
      simp only [hp, bind, Except.bind] at h
      exact ih t (process_entry_nodup castD globals columns_vector table t f hn hp) h

/-! ## Reading a log -/

theorem apply_rules_eq_log_step (castD : double_cast) (globals : label_type_vector_t) :
    apply_rules [(key_value_regex, log_handler castD globals)] = log_step castD globals := by
  funext st line
  unfold log_step apply_rules
  cases hk : key_value_regex line <;> simp [List.findSome?, hk]

theorem parse_lines_eq_foldlM (castD : double_cast) (globals : label_type_vector_t)
    (f : dir_entry) (st : List entry_t × column_t) :
    parse_lines f.log [(key_value_regex, log_handler castD globals)] st
      = (log_lines f).foldlM (log_step castD globals) st := by
  unfold parse_lines log_lines
  cases f.log with
  | none => rfl
  | some lines =>
    simp only [Option.getD_some]
    rw [apply_rules_eq_log_step]

/-- A call of the handler succeeds exactly when its two statements do. -/
theorem log_handler_eq_ok (castD : double_cast) (globals : label_type_vector_t)
    (m : smatch) (st st1 : List entry_t × column_t) :
    log_handler castD globals m st = .ok st1
      ↔ store_global castD globals m st.1 = .ok st1.1
        ∧ store_local castD m st.2 = .ok st1.2 := by
  unfold log_handler
  simp only [bind, Except.bind, pure, Except.pure]
  cases hg : store_global castD globals m st.1 with
  | error e => simp
  | ok g =>
    cases hl : store_local castD m st.2 with
    | error e => simp
    | ok e =>
      simp only [Except.ok.injEq]
      constructor
      · intro h
        rw [← h]
        exact ⟨rfl, rfl⟩
      · intro h
        exact Prod.ext h.1 h.2

/-- The scratch entry after one call of the handler. -/
theorem log_handler_scratch (castD : double_cast) (globals : label_type_vector_t)
    (m : smatch) (st st1 : List entry_t × column_t)
    (h : log_handler castD globals m st = .ok st1) :
    (sub m 1 = "Runtime".toList → castD (sub m 2) = .ok st1.2.2 ∧ st1.2.1 = st.2.1)
      ∧ (sub m 1 = "Gates".toList →
          lexical_cast_unsigned (sub m 2) = .ok st1.2.1 ∧ st1.2.2 = st.2.2)
      ∧ (sub m 1 ≠ "Runtime".toList → sub m 1 ≠ "Gates".toList → st1.2 = st.2) := by
  have hne : "Gates".toList ≠ "Runtime".toList := by decide
  have h := ((log_handler_eq_ok castD globals m st st1).1 h).2
  unfold store_local at h
  simp only [bind, Except.bind, pure, Except.pure] at h
  by_cases hr : sub m 1 = "Runtime".toList
  · simp only [hr, if_true] at h
    cases hd : castD (sub m 2) with
    | error e => rw [hd] at h; cases h
    | ok d =>
      rw [hd] at h
      have h := Except.ok.inj h
      rw [← h]
      exact ⟨fun _ => ⟨rfl, rfl⟩, fun hg => absurd (hg.symm.trans hr) hne,
        fun hnr => absurd hr hnr⟩
  · simp only [hr, if_false] at h
    by_cases hg : sub m 1 = "Gates".toList
    · simp only [hg, if_true] at h
      cases hu : lexical_cast_unsigned (sub m 2) with
      | error e => rw [hu] at h; cases h
      | ok u =>
        rw [hu] at h
        have h := Except.ok.inj h
        rw [← h]
        exact ⟨fun hr2 => absurd hr2 hr, fun _ => ⟨rfl, rfl⟩, fun _ hng => absurd hg hng⟩
    · simp only [hg, if_false] at h
      have h := Except.ok.inj h
      rw [← h]
      exact ⟨fun hr2 => absurd hr2 hr, fun hg2 => absurd hg2 hg, fun _ _ => rfl⟩

/-- The scratch entry after one line of a log. -/
theorem log_step_scratch (castD : double_cast) (globals : label_type_vector_t)
    (line : Str) (st st1 : List entry_t × column_t)
    (h : log_step castD globals st line = .ok st1) :
    (match key_value "Gates".toList line with
      | none => st1.2.1 = st.2.1
      | some t => lexical_cast_unsigned t = .ok st1.2.1)
    ∧ (match key_value "Runtime".toList line with
      | none => st1.2.2 = st.2.2
      | some t => castD t = .ok st1.2.2) := by
  have hne : "Gates".toList ≠ "Runtime".toList := by decide
  unfold log_step at h
  unfold key_value
  cases hk : key_value_regex line with
  | none =>
    rw [hk] at h
    cases h
    exact ⟨rfl, rfl⟩
  | some m =>
    rw [hk] at h
    obtain ⟨h1, h2, h3⟩ := log_handler_scratch castD globals m st st1 h
    by_cases hr : sub m 1 = "Runtime".toList
    · have hg : sub m 1 ≠ "Gates".toList := fun hg => hne (hg.symm.trans hr)
      simp only [hr, if_true, hne.symm, if_false]
      exact ⟨(h1 hr).2, (h1 hr).1⟩
    · by_cases hg : sub m 1 = "Gates".toList
      · simp only [hg, if_true, hne, if_false]
        exact ⟨(h2 hg).1, (h2 hg).2⟩
      · simp only [hr, hg, if_false]
        rw [h3 hr hg]
        exact ⟨rfl, rfl⟩

/-- The scratch entry after a log: each component is the conversion of the
value of the last line with its key, and is what it was without such a line. -/
theorem foldlM_log_step_scratch (castD : double_cast) (globals : label_type_vector_t)
    (lines : List Str) (st st1 : List entry_t × column_t)
    (h : lines.foldlM (log_step castD globals) st = .ok st1) :
    (match last_value "Gates".toList lines with
      | none => st1.2.1 = st.2.1
      | some t => lexical_cast_unsigned t = .ok st1.2.1)
    ∧ (match last_value "Runtime".toList lines with
      | none => st1.2.2 = st.2.2
      | some t => castD t = .ok st1.2.2) := by
  induction lines generalizing st with
  | nil =>
    simp only [List.foldlM_nil, pure, Except.pure] at h
    cases h
    exact ⟨rfl, rfl⟩
  | cons line rest ih =>
    rw [List.foldlM_cons] at h
    cases hs : log_step castD globals st line with
    | error e => simp [hs, bind, Except.bind] at h
    | ok st2 =>
      simp only [hs, bind, Except.bind] at h
      obtain ⟨i1, i2⟩ := ih st2 h
      obtain ⟨s1, s2⟩ := log_step_scratch castD globals line st st2 hs
      constructor
      · simp only [last_value]
        cases hl : last_value "Gates".toList rest with
        | some t => rw [hl] at i1; exact i1
        | none =>
          rw [hl] at i1
          simp only at i1 ⊢
          cases hk : key_value "Gates".toList line with
          | none => rw [hk] at s1; simp only at s1 ⊢; rw [i1, s1]
          | some t => rw [hk] at s1; simp only at s1 ⊢; rw [i1]; exact s1
      · simp only [last_value]
        cases hl : last_value "Runtime".toList rest with
        | some t => rw [hl] at i2; exact i2
        | none =>
          rw [hl] at i2
          simp only at i2 ⊢
          cases hk : key_value "Runtime".toList line with
          | none => rw [hk] at s2; simp only at s2 ⊢; rw [i2, s2]
          | some t => rw [hk] at s2; simp only at s2 ⊢; rw [i2]; exact s2

/-! ## The row of an entry -/

theorem find_if_name (table : table_t) (n : Str) :
    find_if table (fun row => decide (row.name = n))
      = List.findIdx (fun x => decide (x = n)) (table.map row_t.name) := by
  unfold find_if
  induction table with
  | nil => rfl
  | cons r rest ih => simp [List.findIdx_cons, ih]

/-- The position `prow` points to is that of the first row with the captured
name. -/
theorem prow_eq_find_if (globals : label_type_vector_t) (columns_vector : columns_vector_t)
    (table : table_t) (m : smatch) :
    (add_or_retrieve_row globals columns_vector table m).2
      = find_if (add_or_retrieve_row globals columns_vector table m).1
          (fun row => decide (row.name = sub m 1)) := by
  by_cases h : sub m 1 ∈ table.map row_t.name
  · rw [(add_or_retrieve_row_of_mem globals columns_vector table m h).1]
  · rw [add_or_retrieve_row_of_not_mem globals columns_vector table m h]
    have hf : List.findIdx (fun row : row_t => decide (row.name = sub m 1)) table
        = table.length := by
      rw [List.findIdx_eq_length]
      intro x hx
      have : x.name ≠ sub m 1 := fun e => h (List.mem_map.2 ⟨x, hx, e⟩)
      simp [this]
    simp only [find_if]
    rw [List.findIdx_append, hf]
    simp [List.findIdx_cons, new_row]

/-- After a successful `process_entry` the row at the position of the captured
name is the row `prow` pointed to, with the globals left by the log and the
scratch entry in its column; every other position is as it was after "add or
retrieve row". -/
theorem process_entry_row (castD : double_cast) (globals : label_type_vector_t)
    (columns_vector : columns_vector_t) (table table1 : table_t) (f : dir_entry) (m : smatch)
    (hm : f.m = some m)
    (h : process_entry castD globals columns_vector table f = .ok table1) :
    ∃ row st,
      (add_or_retrieve_row globals columns_vector table m).1[
        find_if table1 (fun row => decide (row.name = sub m 1))]? = some row
      ∧ find_if table1 (fun row => decide (row.name = sub m 1))
          = (add_or_retrieve_row globals columns_vector table m).2
      ∧ row.name = sub m 1
      ∧ (log_lines f).foldlM (log_step castD globals) (row.globals, column_t_default) = .ok st
      ∧ column_index columns_vector m < row.locals.length
      ∧ table1[find_if table1 (fun row => decide (row.name = sub m 1))]?
          = some { row with
              globals := st.1
              locals := row.locals.set (column_index columns_vector m) st.2 }
      ∧ ∀ q, q ≠ find_if table1 (fun row => decide (row.name = sub m 1)) →
          table1[q]? = (add_or_retrieve_row globals columns_vector table m).1[q]? := by
  obtain ⟨row, st, hrow, hp, hlt, ht⟩ :=
    process_entry_ok_inv castD globals columns_vector table table1 f m hm h
  obtain ⟨row2, hrow2, hname⟩ := prow_spec globals columns_vector table m
  rw [hrow] at hrow2
  cases Option.some.inj hrow2
  have hnames : table1.map row_t.name
      = (add_or_retrieve_row globals columns_vector table m).1.map row_t.name := by
    rw [ht]
    exact map_set_of_eq row_t.name _ _ row
      ⟨row.name, st.1, row.locals.set (column_index columns_vector m) st.2⟩ hrow rfl
  have hpos : find_if table1 (fun row => decide (row.name = sub m 1))
      = (add_or_retrieve_row globals columns_vector table m).2 := by
    rw [prow_eq_find_if, find_if_name, find_if_name, hnames]
  have hbound : (add_or_retrieve_row globals columns_vector table m).2
      < (add_or_retrieve_row globals columns_vector table m).1.length :=
    (List.getElem?_eq_some.1 hrow).1
  rw [parse_lines_eq_foldlM] at hp
  refine ⟨row, st, by rw [hpos]; exact hrow, hpos, hname, hp, hlt, ?_, ?_⟩
  · rw [hpos, ht]
    exact List.getElem?_set_self hbound
  · intro q hq
    rw [hpos] at hq
    rw [ht]
    exact List.getElem?_set_ne (Ne.symm hq)

/-! ## The number of local columns of the rows -/

theorem process_entry_locals_length (castD : double_cast) (globals : label_type_vector_t)
    (columns_vector : columns_vector_t) (table table1 : table_t) (f : dir_entry)
    (hf : ∀ m, f.m = some m → m.length = 3)
    (hinv : ∀ row ∈ table, row.locals.length = columns_vector.length)
    (h : process_entry castD globals columns_vector table f = .ok table1) :
    ∀ row ∈ table1, row.locals.length = columns_vector.length := by
  cases hm : f.m with
  | none =>
    rw [process_entry_none castD globals columns_vector table f hm] at h
    cases h
    exact hinv
  | some m =>
    obtain ⟨row, st, hrow, _, _, ht⟩ :=
      process_entry_ok_inv castD globals columns_vector table table1 f m hm h
    have hinv1 : ∀ r ∈ (add_or_retrieve_row globals columns_vector table m).1,
        r.locals.length = columns_vector.length := by
      by_cases hmem : sub m 1 ∈ table.map row_t.name
      · rw [(add_or_retrieve_row_of_mem globals columns_vector table m hmem).1]
        exact hinv
      · rw [add_or_retrieve_row_of_not_mem globals columns_vector table m hmem]
        intro r hr
        rcases List.mem_append.1 hr with hr | hr
        · exact hinv r hr
        · have : r = new_row globals columns_vector m := by simpa using hr
          rw [this]
          simp [new_row, hf m hm]
    have hrowmem : row ∈ (add_or_retrieve_row globals columns_vector table m).1 :=
      List.mem_iff_getElem?.2 ⟨_, hrow⟩
    intro r hr
    rw [ht] at hr
    rcases List.mem_or_eq_of_mem_set hr with hr | hr
    · exact hinv1 r hr
    · rw [hr]
      simp only [List.length_set]
      exact hinv1 row hrowmem

theorem foldlM_process_entry_locals_length (castD : double_cast)
    (globals : label_type_vector_t) (columns_vector : columns_vector_t) (dir : List dir_entry)
    (table table1 : table_t)
    (hdir : ∀ e ∈ dir, ∀ m, e.m = some m → m.length = 3)
    (hinv : ∀ row ∈ table, row.locals.length = columns_vector.length)
    (h : dir.foldlM (process_entry castD globals columns_vector) table = .ok table1) :
    ∀ row ∈ table1, row.locals.length = columns_vector.length := by
  induction dir generalizing table with
  | nil =>
    simp only [List.foldlM_nil, pure, Except.pure] at h
    cases h
    exact hinv
  | cons f rest ih =>
    rw [List.foldlM_cons] at h
    cases hp : process_entry castD globals columns_vector table f with
    | error e => simp [hp, bind, Except.bind] at h
    | ok t =>
      simp only [hp, bind, Except.bind] at h
      exact ih t (fun e he => hdir e (List.mem_cons_of_mem _ he))
        (process_entry_locals_length castD globals columns_vector table t f
          (hdir f (by simp)) hinv hp) h

/-! ## The widths of the generic renderer -/

theorem add_length_spec (t : benchmark_table) (value : field)
    (h : t.length_i < t.lengths.length) :
    ∃ t1, t.add_length value = .ok t1
      ∧ t1.length_i = t.length_i + 1
      ∧ t1._column_names = t._column_names
      ∧ t1.results = t.results
      ∧ t1.lengths.length = t.lengths.length
      ∧ ∀ j w, t.lengths[j]? = some w →
          t1.lengths[j]?
            = some (if j = t.length_i then max w (lexical_cast_string value).length else w) := by
  have hw : t.lengths[t.length_i]? = some t.lengths[t.length_i] := List.getElem?_eq_getElem h
  unfold benchmark_table.add_length
  rw [hw]
  refine ⟨_, rfl, rfl, rfl, rfl, ?_, ?_⟩
  · simp only
    split <;> simp
  · intro j w hj
    simp only
    by_cases hl : (lexical_cast_string value).length > t.lengths[t.length_i]
    · simp only [hl, if_true]
      by_cases hji : j = t.length_i
      · subst hji
        rw [hw] at hj
        cases hj
        rw [List.getElem?_set_self h]
        simp only [if_true]
        congr 1
        omega
      · rw [List.getElem?_set_ne (Ne.symm hji), hj]
        simp [hji]
    · simp only [hl, if_false]
      by_cases hji : j = t.length_i
      · subst hji
        rw [hw] at hj
        cases hj
        rw [hw]
        simp only [if_true]
        congr 1
        omega
      · rw [hj]
        simp [hji]

theorem compute_lengths_spec (args : List field) (t : benchmark_table)
    (h : t.length_i + args.length ≤ t.lengths.length) :
    ∃ t1, t.compute_lengths args = .ok t1
      ∧ t1._column_names = t._column_names
      ∧ t1.results = t.results
      ∧ t1.lengths.length = t.lengths.length
      ∧ ∀ j w, t.lengths[j]? = some w →
          t1.lengths[j]?
            = some (if t.length_i ≤ j then max w (cell_length args (j - t.length_i)) else w) := by
  induction args generalizing t with
  | nil =>
    refine ⟨t, rfl, rfl, rfl, rfl, ?_⟩
    intro j w hj
    simp [cell_length, hj]
  | cons head tail ih =>
    have hlt : t.length_i < t.lengths.length := by
      simp only [List.length_cons] at h
      omega
    obtain ⟨t1, h1, hi1, hn1, hr1, hl1, hw1⟩ := add_length_spec t head hlt
    have h2 : t1.length_i + tail.length ≤ t1.lengths.length := by
      simp only [List.length_cons] at h
      omega
    obtain ⟨t2, h2, hn2, hr2, hl2, hw2⟩ := ih t1 h2
    refine ⟨t2, ?_, hn2.trans hn1, hr2.trans hr1, hl2.trans hl1, ?_⟩
    · simp only [benchmark_table.compute_lengths, h1, bind, Except.bind]
      exact h2
    · intro j w hj
      rw [hw2 j _ (hw1 j w hj), hi1]
      congr 1
      by_cases hji : j = t.length_i
      · subst hji
        simp [cell_length]
      · by_cases hlt2 : t.length_i + 1 ≤ j
        · have hle : t.length_i ≤ j := by omega
          have hsub : j - t.length_i = (j - (t.length_i + 1)) + 1 := by omega
          simp only [hji, if_false, hlt2, if_true, hle, cell_length]
          rw [hsub, List.getElem?_cons_succ]
        · have hle : ¬ t.length_i ≤ j := by omega
          simp [hji, hlt2, hle]

theorem add_spec (t : benchmark_table) (args : List field)
    (h : args.length ≤ t.lengths.length) :
    ∃ t1, t.add args = .ok t1
      ∧ t1._column_names = t._column_names
      ∧ t1.results = t.results ++ [args]
      ∧ t1.lengths.length = t.lengths.length
      ∧ ∀ j w, t.lengths[j]? = some w →
          t1.lengths[j]? = some (max w (cell_length args j)) := by
  obtain ⟨t1, h1, hn, hr, hl, hw⟩ := compute_lengths_spec args
    { t with results := t.results ++ [args], length_i := 0 } (by simpa using h)
  refine ⟨t1, h1, hn, hr, hl, ?_⟩
  intro j w hj
  have := hw j w hj
  simpa using this

theorem add_all_spec (rows : List (List field)) (t : benchmark_table)
    (h : ∀ row ∈ rows, row.length = t.lengths.length) :
    ∃ t1, t.add_all rows = .ok t1
      ∧ t1._column_names = t._column_names
      ∧ t1.results = t.results ++ rows
      ∧ t1.lengths.length = t.lengths.length
      ∧ ∀ j w, t.lengths[j]? = some w →
          t1.lengths[j]?
            = some (rows.foldl (fun w row => max w (cell_length row j)) w) := by
  induction rows generalizing t with
  | nil => exact ⟨t, rfl, rfl, by simp, rfl, fun j w hj => by simpa using hj⟩
  | cons row rest ih =>
    obtain ⟨t1, h1, hn1, hr1, hl1, hw1⟩ := add_spec t row (Nat.le_of_eq (h row (by simp)))
    obtain ⟨t2, h2, hn2, hr2, hl2, hw2⟩ := ih t1
      (fun r hr => by rw [hl1]; exact h r (List.mem_cons_of_mem _ hr))
    refine ⟨t2, ?_, hn2.trans hn1, ?_, hl2.trans hl1, ?_⟩
    · simp only [benchmark_table.add_all, List.foldlM_cons, h1, bind, Except.bind]
      exact h2
    · rw [hr2, hr1]
      simp
    · intro j w hj
      rw [hw2 j _ (hw1 j w hj)]
      rfl

/-! ## The claims -/

/-- C1. Scenario C on the code: with the global spec `Lines:u` and no column
spec, the log `Gates: 42`, `Runtime: 3.5`, `Lines: 100` leaves the scratch
entry `(42, 3.5)` in the only local column, and stores the global `Lines` as a
`double` (the conversion of 100), not as the `unsigned` 100 that its tag `u`
announces. In general a global with the tag `u` whose line carries the
unsigned `n` is stored as the `double` conversion of `n`. -/
theorem scenario_c_global_stored_as_double (castD : double_cast) (d : Double)
    (h : castD "3.5".toList = .ok d) :
    main_table castD [] "Lines:u".toList "Gates:u,Runtime:f".toList scenario_c_dir
        = .ok [⟨"adder".toList, [entry_t.dbl (to_double 100)], [(42, d)]⟩]
      ∧ entry_t.dbl (to_double 100) ≠ entry_t.uint 100
      ∧ ∀ (globals : label_type_vector_t) (m : smatch) (row_globals : List entry_t)
          (spec : Str × Char) (n : Nat),
          globals[find_if globals (first_matches (sub m 1))]? = some spec → spec.2 = 'u' →
          lexical_cast_unsigned (sub m 2) = .ok n →
          find_if globals (first_matches (sub m 1)) < row_globals.length →
          store_global castD globals m row_globals
            = .ok (row_globals.set (find_if globals (first_matches (sub m 1)))
                (entry_t.dbl (to_double n))) := by
  refine ⟨?_, by decide, ?_⟩
  swap
  · intro globals m row_globals spec n hspec hu hn hlt
    simp only [store_global, hspec, hu, if_true, hn, Except.map, bind, Except.bind, vector_set,
      hlt]
  have hc : parse_columns [] = .ok [] := by decide
  have hg : parse_label_type_string "Lines:u".toList = .ok [("Lines".toList, 'u')] := by decide
  have hl : parse_label_type_string "Gates:u,Runtime:f".toList
      = .ok [("Gates".toList, 'u'), ("Runtime".toList, 'f')] := by decide
  have k1 : key_value_regex "Gates: 42".toList
      = some ["Gates: 42".toList, "Gates".toList, "42".toList] := by decide
  have k2 : key_value_regex "Runtime: 3.5".toList
      = some ["Runtime: 3.5".toList, "Runtime".toList, "3.5".toList] := by decide
  have k3 : key_value_regex "Lines: 100".toList
      = some ["Lines: 100".toList, "Lines".toList, "100".toList] := by decide
  have u1 : lexical_cast_unsigned "42".toList = .ok 42 := by decide
  have u3 : lexical_cast_unsigned "100".toList = .ok 100 := by decide
  have f1 : find_if [("Lines".toList, 'u')] (first_matches "Gates".toList) = 1 := by decide
  have f2 : find_if [("Lines".toList, 'u')] (first_matches "Runtime".toList) = 1 := by decide
  have f3 : find_if [("Lines".toList, 'u')] (first_matches "Lines".toList) = 0 := by decide
  have n1 : ¬ ("Gates".toList = "Runtime".toList) := by decide
  have n2 : ¬ ("Lines".toList = "Runtime".toList) := by decide
  have n3 : ¬ ("Lines".toList = "Gates".toList) := by decide
  have h1 : ∀ st, log_handler castD [("Lines".toList, 'u')]
      ["Gates: 42".toList, "Gates".toList, "42".toList] st = .ok (st.1, (42, st.2.2)) := by
    intro st
    simp only [log_handler, store_global, store_local, sub, List.getD_cons_succ,
      List.getD_cons_zero, f1, u1, n1, if_false, if_true]
    rfl
  have h2 : ∀ st, log_handler castD [("Lines".toList, 'u')]
      ["Runtime: 3.5".toList, "Runtime".toList, "3.5".toList] st = .ok (st.1, (st.2.1, d)) := by
    intro st
    simp only [log_handler, store_global, store_local, sub, List.getD_cons_succ,
      List.getD_cons_zero, f2, h, if_true]
    rfl
  have h3 : ∀ e c, log_handler castD [("Lines".toList, 'u')]
      ["Lines: 100".toList, "Lines".toList, "100".toList] ([e], c)
        = .ok ([entry_t.dbl (to_double 100)], c) := by
    intro e c
    simp only [log_handler, store_global, store_local, sub, List.getD_cons_succ,
      List.getD_cons_zero, f3, u3, n2, n3, if_false]
    rfl
  have a : add_or_retrieve_row [("Lines".toList, 'u')] [] []
      ["adder.real".toList, "adder".toList]
        = ([⟨"adder".toList, [entry_t.uint 0], [column_t_default]⟩], 0) := by decide
  have ci : column_index [] ["adder.real".toList, "adder".toList] = 0 := by decide
  simp only [main_table, hc, hg, hl, scan, scenario_c_dir, scenario_c_log, process_entry,
    parse_lines, apply_rules, List.foldlM_cons, List.foldlM_nil, List.findSome?, k1, k2, k3,
    Option.map,
    bind, Except.bind, pure, Except.pure, h1, h2, a, ci, List.getElem?_cons_zero, h3]
  rfl

/-- Scenario C with a conversion that reads `3.5`. -/
theorem scenario_c_global_stored_as_double_witness :
    cast_3_5 "3.5".toList = .ok ⟨0x400C000000000000⟩
      ∧ main_table cast_3_5 [] "Lines:u".toList "Gates:u,Runtime:f".toList scenario_c_dir
        = .ok [⟨"adder".toList, [entry_t.dbl (to_double 100)], [(42, ⟨0x400C000000000000⟩)]⟩] :=
  ⟨by decide, (scenario_c_global_stored_as_double cast_3_5 ⟨0x400C000000000000⟩ (by decide)).1⟩

/-- C2. `parse_label_type_string` preserves content and order: the text of a
list of `name:tag` pairs joined by commas, where no name or tag contains a
comma or a colon and no tag is empty, parses to a list with the same names in
the same order, each with the first character of its tag; in particular the
empty string parses to the empty list. -/
theorem parse_label_type_string_preserves (pairs : List (Str × Str))
    (h : ∀ p ∈ pairs, ',' ∉ p.1 ∧ ':' ∉ p.1 ∧ ',' ∉ p.2 ∧ ':' ∉ p.2 ∧ p.2 ≠ []) :
    ∃ vec, parse_label_type_string (join_with ',' (pairs.map (pair_text ':'))) = .ok vec
      ∧ vec.length = pairs.length
      ∧ vec.map (fun e => e.1) = pairs.map (fun p => p.1)
      ∧ vec.map (fun e => some e.2) = pairs.map (fun p => p.2.head?) := by
  cases pairs with
  | nil => exact ⟨[], rfl, rfl, rfl, rfl⟩
  | cons x rest =>
    refine ⟨(x :: rest).map (fun p => (p.1, first_char p.2)), ?_, by simp, by simp, ?_⟩
    · unfold parse_label_type_string
      have hne : (join_with ',' ((x :: rest).map (pair_text ':'))).isEmpty = false := by
        have := join_with_pair_text_ne_nil ',' ':' x rest
        cases hj : join_with ',' ((x :: rest).map (pair_text ':')) with
        | nil => exact absurd hj this
        | cons _ _ => rfl
      rw [hne]
      simp only [Bool.false_eq_true, if_false]
      exact foreach_pairs ',' ':' (by decide) (fun p => (p.1, first_char p.2)) (x :: rest)
        (fun p hp => ⟨(h p hp).1, (h p hp).2.1, (h p hp).2.2.1⟩) (by simp)
    · rw [List.map_map]
      apply List.map_congr_left
      intro p hp
      have hp2 : p.2 ≠ [] := (h p hp).2.2.2.2
      cases hq : p.2 with
      | nil => exact absurd hq hp2
      | cons c cs => simp [first_char, hq]

/-- Scenario A: `Lines:u,Runtime:f` parses to `Lines` with `u` and `Runtime`
with `f`. -/
theorem parse_label_type_string_preserves_witness :
    (∀ p ∈ [("Lines".toList, "u".toList), ("Runtime".toList, "f".toList)],
        ',' ∉ p.1 ∧ ':' ∉ p.1 ∧ ',' ∉ p.2 ∧ ':' ∉ p.2 ∧ p.2 ≠ [])
      ∧ join_with ',' ([("Lines".toList, "u".toList), ("Runtime".toList, "f".toList)].map
          (pair_text ':')) = "Lines:u,Runtime:f".toList
      ∧ parse_label_type_string "Lines:u,Runtime:f".toList
          = .ok [("Lines".toList, 'u'), ("Runtime".toList, 'f')]
      ∧ ∃ vec, parse_label_type_string (join_with ','
            ([("Lines".toList, "u".toList), ("Runtime".toList, "f".toList)].map (pair_text ':')))
          = .ok vec
        ∧ vec.length = 2
        ∧ vec.map (fun e => e.1) = ["Lines".toList, "Runtime".toList]
        ∧ vec.map (fun e => some e.2) = [some 'u', some 'f'] :=
  ⟨by decide, by decide, by decide,
    parse_label_type_string_preserves
      [("Lines".toList, "u".toList), ("Runtime".toList, "f".toList)] (by decide)⟩

/-- C3. Name uniqueness is an invariant of the scan: the table left by the scan
of any directory has no two rows with the same name; and one step of the scan
appends exactly one row, with the captured name, when no row has that name,
and otherwise leaves the names and the length of the table as they were. -/
theorem table_names_unique (castD : double_cast) (globals : label_type_vector_t)
    (columns_vector : columns_vector_t) :
    (∀ dir table, scan castD globals columns_vector dir = .ok table →
        (table.map row_t.name).Nodup)
      ∧ (∀ table f m table1, f.m = some m →
          process_entry castD globals columns_vector table f = .ok table1 →
          (sub m 1 ∉ table.map row_t.name →
              table1.map row_t.name = table.map row_t.name ++ [sub m 1]
                ∧ table1.length = table.length + 1)
            ∧ (sub m 1 ∈ table.map row_t.name →
              table1.map row_t.name = table.map row_t.name
                ∧ table1.length = table.length)) := by
  refine ⟨?_, ?_⟩
  · intro dir table h
    exact foldlM_process_entry_nodup castD globals columns_vector dir [] table
      List.nodup_nil h
  · intro table f m table1 hm h
    have hn := process_entry_names castD globals columns_vector table table1 f m hm h
    refine ⟨fun hmem => ?_, fun hmem => ?_⟩
    · rw [if_neg hmem] at hn
      refine ⟨hn, ?_⟩
      have := congrArg List.length hn
      simpa using this
    · rw [if_pos hmem] at hn
      refine ⟨hn, ?_⟩
      have := congrArg List.length hn
      simpa using this

/-- The scan of a directory with a repeated name ends with one row per
name. -/
theorem table_names_unique_witness :
    scan cast_3_5 [("Lines".toList, 'u')] [] three_files_dir
        = .ok [⟨"adder".toList, [entry_t.dbl (to_double 5)], [(0, Double.zero)]⟩,
               ⟨"mult".toList, [entry_t.uint 0], [(7, Double.zero)]⟩]
      ∧ (List.map row_t.name
          [⟨"adder".toList, [entry_t.dbl (to_double 5)], [(0, Double.zero)]⟩,
           ⟨"mult".toList, [entry_t.uint 0], [(7, Double.zero)]⟩]).Nodup :=
  ⟨by decide,
    (table_names_unique cast_3_5 [("Lines".toList, 'u')] []).1 three_files_dir _ (by decide)⟩

/-- C4. Row creation on the code: a created row has one global entry per global
property, and `columns_vector.size()` local columns when the match has two
capture groups, one otherwise. With one capture group and the column spec
`00=A,01=B` the row has one local column where the printing loop reads two;
with two capture groups and an empty column spec the row has no local column
and the write of the scratch entry is out of range. -/
theorem row_creation_sizes_follow_capture_groups :
    (∀ (globals : label_type_vector_t) (columns_vector : columns_vector_t) (m : smatch),
        (new_row globals columns_vector m).globals.length = globals.length
          ∧ (new_row globals columns_vector m).locals.length
              = if m.length = 3 then columns_vector.length else 1)
      ∧ parse_columns "00=A,01=B".toList
          = .ok [("00".toList, "A".toList), ("01".toList, "B".toList)]
      ∧ scan cast_3_5 [("Lines".toList, 'u')]
            [("00".toList, "A".toList), ("01".toList, "B".toList)]
            [⟨some ["adder.real".toList, "adder".toList], some ["Gates: 7".toList]⟩]
          = .ok [⟨"adder".toList, [entry_t.uint 0], [(7, Double.zero)]⟩]
      ∧ printed_columns "00=A,01=B".toList
            [("00".toList, "A".toList), ("01".toList, "B".toList)] = 2
      ∧ max 1 [("00".toList, "A".toList), ("01".toList, "B".toList)].length = 2
      ∧ (new_row [("Lines".toList, 'u')] []
            ["adder-00.real".toList, "adder".toList, "00".toList]).locals = []
      ∧ scan cast_3_5 [("Lines".toList, 'u')] []
            [⟨some ["adder-00.real".toList, "adder".toList, "00".toList],
              some ["Gates: 7".toList]⟩]
          = .error .out_of_range := by
  refine ⟨?_, by decide, by decide, by decide, by decide, by decide, by decide⟩
  intro globals columns_vector m
  by_cases h : m.length = 3 <;> simp [new_row, h]

/-- C5, the claim fails: with the global spec `Runtime:f` the row created for
`adder.real` holds the `unsigned` zero in its global cell, not the `double`
zero, and a scan whose log never sets the global leaves it so. -/
theorem unset_float_global_is_unsigned_zero :
    (new_row [("Runtime".toList, 'f')] [] ["adder.real".toList, "adder".toList]).globals
        = [entry_t.uint 0]
      ∧ (new_row [("Runtime".toList, 'f')] []
          ["adder.real".toList, "adder".toList]).globals[0]? ≠ some (entry_t.dbl Double.zero)
      ∧ scan cast_3_5 [("Runtime".toList, 'f')] []
            [⟨some ["adder.real".toList, "adder".toList], some ["Gates: 7".toList]⟩]
          = .ok [⟨"adder".toList, [entry_t.uint 0], [(7, Double.zero)]⟩] := by
  decide

/-- C5, amended. In every freshly created row every global cell is the
`unsigned` zero, whatever the tag of its property: when no row has the captured
name, the row appended to the table has one global cell per global property
and each of them holds `UInt(0)`. -/
theorem fresh_row_globals_are_unsigned_zero (globals : label_type_vector_t)
    (columns_vector : columns_vector_t) (table : table_t) (m : smatch)
    (h : sub m 1 ∉ table.map row_t.name) :
    ∃ row, add_or_retrieve_row globals columns_vector table m
          = (table ++ [row], table.length)
      ∧ row.globals.length = globals.length
      ∧ ∀ i, i < globals.length → row.globals[i]? = some (entry_t.uint 0) := by
  refine ⟨new_row globals columns_vector m,
    add_or_retrieve_row_of_not_mem globals columns_vector table m h, by simp [new_row], ?_⟩
  intro i hi
  simp [new_row, entry_t.default, List.getElem?_replicate, hi]

/-- A first row under the global spec `Lines:u,Runtime:f`. -/
theorem fresh_row_globals_are_unsigned_zero_witness :
    sub ["adder.real".toList, "adder".toList] 1 ∉ List.map row_t.name []
      ∧ ∃ row, add_or_retrieve_row [("Lines".toList, 'u'), ("Runtime".toList, 'f')] [] []
            ["adder.real".toList, "adder".toList] = ([] ++ [row], 0)
        ∧ row.globals.length = 2
        ∧ ∀ i, i < 2 → row.globals[i]? = some (entry_t.uint 0) :=
  ⟨by decide,
    fresh_row_globals_are_unsigned_zero [("Lines".toList, 'u'), ("Runtime".toList, 'f')] [] []
      ["adder.real".toList, "adder".toList] (by decide)⟩

/-- C6, the claim fails: with the column spec `00=Col 1,01=Col 2` the
discriminator `Col 2`, the label of the second column, does not resolve to the
position 1 of that column but to 2, past the last column; it is the id `01`
that resolves to 1. -/
theorem column_lookup_is_not_by_label :
    parse_columns "00=Col 1,01=Col 2".toList = .ok two_columns
      ∧ List.findIdx (fun c => decide (c.2 = "Col 2".toList)) two_columns = 1
      ∧ column_index two_columns
          ["adder-Col 2.real".toList, "adder".toList, "Col 2".toList] = 2
      ∧ column_index two_columns adder_01 = 1 := by
  decide

/-- C6, amended. Column index resolution is by id: for a column spec written
as `id=label` pairs, when the match of a file name has two capture groups and
some declared column has the second capture as its id, the column index is the
position of the first such column; when the match has no second capture group
the index is 0. -/
theorem column_index_is_by_id (pairs : List (Str × Str)) (m : smatch)
    (hp : ∀ p ∈ pairs, ',' ∉ p.1 ∧ '=' ∉ p.1 ∧ ',' ∉ p.2) :
    ∃ columns_vector,
      parse_columns (join_with ',' (pairs.map (pair_text '='))) = .ok columns_vector
      ∧ columns_vector = pairs
      ∧ (m.length = 3 → (∃ p ∈ pairs, p.1 = sub m 2) →
          ∃ p, pairs[column_index columns_vector m]? = some p ∧ p.1 = sub m 2
            ∧ ∀ j q, j < column_index columns_vector m → pairs[j]? = some q → q.1 ≠ sub m 2)
      ∧ (m.length ≠ 3 → column_index columns_vector m = 0) := by
  refine ⟨pairs, ?_, rfl, ?_, ?_⟩
  · cases pairs with
    | nil => rfl
    | cons x rest =>
      unfold parse_columns
      have hne : (join_with ',' ((x :: rest).map (pair_text '='))).isEmpty = false := by
        have := join_with_pair_text_ne_nil ',' '=' x rest
        cases hj : join_with ',' ((x :: rest).map (pair_text '=')) with
        | nil => exact absurd hj this
        | cons _ _ => rfl
      rw [hne]
      simp only [Bool.false_eq_true, if_false]
      have := foreach_pairs ',' '=' (by decide) (fun p => p) (x :: rest) hp (by simp)
      simpa using this
  · intro hlen hex
    have hidx : column_index pairs m = List.findIdx (first_matches (sub m 2)) pairs := by
      simp [column_index, hlen, find_if]
    rw [hidx]
    have hlt : List.findIdx (first_matches (sub m 2)) pairs < pairs.length := by
      rw [List.findIdx_lt_length]
      obtain ⟨p, hpm, e⟩ := hex
      exact ⟨p, hpm, by simp [first_matches, e]⟩
    refine ⟨pairs[List.findIdx (first_matches (sub m 2)) pairs], List.getElem?_eq_getElem hlt,
      ?_, ?_⟩
    · have := @List.findIdx_getElem _ (first_matches (sub m 2)) pairs hlt
      simpa [first_matches] using this
    · intro j q hj hq
      obtain ⟨hjl, rfl⟩ := List.getElem?_eq_some.1 hq
      have := @List.not_of_lt_findIdx _ (first_matches (sub m 2)) pairs j hj
      simpa [first_matches] using this
  · intro hlen
    simp [column_index, hlen]

/-- The column spec `00=Col 1,01=Col 2` and the discriminator `01`. -/
theorem column_index_is_by_id_witness :
    (∀ p ∈ two_columns, ',' ∉ p.1 ∧ '=' ∉ p.1 ∧ ',' ∉ p.2)
      ∧ join_with ',' (two_columns.map (pair_text '=')) = "00=Col 1,01=Col 2".toList
      ∧ column_index two_columns adder_01 = 1
      ∧ ∃ columns_vector,
        parse_columns (join_with ',' (two_columns.map (pair_text '='))) = .ok columns_vector
        ∧ columns_vector = two_columns
        ∧ (adder_01.length = 3 → (∃ p ∈ two_columns, p.1 = sub adder_01 2) →
            ∃ p, two_columns[column_index columns_vector adder_01]? = some p
              ∧ p.1 = sub adder_01 2
              ∧ ∀ j q, j < column_index columns_vector adder_01 →
                  two_columns[j]? = some q → q.1 ≠ sub adder_01 2)
        ∧ (adder_01.length ≠ 3 → column_index columns_vector adder_01 = 0) :=
  ⟨by decide, by decide, by decide, column_index_is_by_id two_columns adder_01 (by decide)⟩

/-- C7. The local cell is overwritten by the file's own scratch entry: after a
file with column index `c` has been processed, the row of the file's name holds
in `locals[c]` the pair `(g, r)` where `g` is the conversion of the value of
the last `Gates` line of the file's log, or 0 without such a line, and `r` is
the conversion of the value of the last `Runtime` line, or 0.0 without such a
line, whatever the table held before. -/
theorem local_cell_is_scratch_entry (castD : double_cast) (globals : label_type_vector_t)
    (columns_vector : columns_vector_t) (table table1 : table_t) (f : dir_entry) (m : smatch)
    (hm : f.m = some m)
    (h : process_entry castD globals columns_vector table f = .ok table1) :
    ∃ row g r,
      table1[find_if table1 (fun row => decide (row.name = sub m 1))]? = some row
      ∧ row.name = sub m 1
      ∧ row.locals[column_index columns_vector m]? = some (g, r)
      ∧ (match last_value "Gates".toList (log_lines f) with
          | none => g = 0
          | some t => lexical_cast_unsigned t = .ok g)
      ∧ (match last_value "Runtime".toList (log_lines f) with
          | none => r = Double.zero
          | some t => castD t = .ok r) := by
  obtain ⟨row, st, _, _, hname, hlog, hlt, hget, _⟩ :=
    process_entry_row castD globals columns_vector table table1 f m hm h
  obtain ⟨hg, hr⟩ := foldlM_log_step_scratch castD globals (log_lines f)
    (row.globals, column_t_default) st hlog
  refine ⟨_, st.2.1, st.2.2, hget, hname, ?_, ?_, ?_⟩
  · exact List.getElem?_set_self hlt
  · cases hl : last_value "Gates".toList (log_lines f) with
    | none => rw [hl] at hg; exact hg
    | some t => rw [hl] at hg; exact hg
  · cases hl : last_value "Runtime".toList (log_lines f) with
    | none => rw [hl] at hr; exact hr
    | some t => rw [hl] at hr; exact hr

/-- The file `adder-01.real` processed after `adder-00.real`: the second local
column of the row `adder` becomes `(9, 3.5)`. -/
theorem local_cell_is_scratch_entry_witness :
    process_entry cast_3_5 [("Lines".toList, 'u')] two_columns column_00_table column_01_entry
        = .ok column_01_table
      ∧ column_index two_columns adder_01 = 1
      ∧ last_value "Gates".toList (log_lines column_01_entry) = some "9".toList
      ∧ ∃ row g r,
        column_01_table[find_if column_01_table
            (fun row => decide (row.name = sub adder_01 1))]? = some row
        ∧ row.name = sub adder_01 1
        ∧ row.locals[column_index two_columns adder_01]? = some (g, r)
        ∧ (match last_value "Gates".toList (log_lines column_01_entry) with
            | none => g = 0
            | some t => lexical_cast_unsigned t = .ok g)
        ∧ (match last_value "Runtime".toList (log_lines column_01_entry) with
            | none => r = Double.zero
            | some t => cast_3_5 t = .ok r) :=
  ⟨by decide, by decide, by decide,
    local_cell_is_scratch_entry cast_3_5 [("Lines".toList, 'u')] two_columns column_00_table
      column_01_table column_01_entry adder_01 rfl (by decide)⟩

/-- C8. Columns are populated independently: under a non-empty column spec and
a pattern with two capture groups, a file that is processed on the table left
by a scan has a column index `c` below the number of declared columns, and
changes, among the local cells of the table, only `locals[c]` of the row with
its name: that row has one local cell per declared column, its other local
cells are what they were (value-initialised when the row is new), and every
other row is unchanged. -/
theorem columns_populated_independently (castD : double_cast)
    (globals : label_type_vector_t) (columns_vector : columns_vector_t)
    (dir : List dir_entry) (table table1 : table_t) (f : dir_entry) (m : smatch)
    (hcols : columns_vector ≠ [])
    (hdir : ∀ e ∈ dir, ∀ m1, e.m = some m1 → m1.length = 3)
    (hscan : scan castD globals columns_vector dir = .ok table)
    (hm : f.m = some m) (hlen : m.length = 3)
    (h : process_entry castD globals columns_vector table f = .ok table1) :
    column_index columns_vector m < columns_vector.length
      ∧ (∃ row,
          table1[find_if table1 (fun row => decide (row.name = sub m 1))]? = some row
          ∧ row.name = sub m 1
          ∧ row.locals.length = columns_vector.length
          ∧ ∀ j, j ≠ column_index columns_vector m →
              row.locals[j]?
                = match table[find_if table1 (fun row => decide (row.name = sub m 1))]? with
                  | some old => old.locals[j]?
                  | none => (List.replicate columns_vector.length column_t_default)[j]?)
      ∧ ∀ q, q ≠ find_if table1 (fun row => decide (row.name = sub m 1)) →
          table1[q]? = table[q]? := by
  have _ := hcols
  have hinv : ∀ row ∈ table, row.locals.length = columns_vector.length :=
    foldlM_process_entry_locals_length castD globals columns_vector dir [] table hdir
      (by simp) hscan
  obtain ⟨row, st, hrow, hpos, hname, _, hlt, hget, hother⟩ :=
    process_entry_row castD globals columns_vector table table1 f m hm h
  by_cases hmem : sub m 1 ∈ table.map row_t.name
  · obtain ⟨e, hbound⟩ := add_or_retrieve_row_of_mem globals columns_vector table m hmem
    rw [e] at hrow hother hpos
    have hrl : row.locals.length = columns_vector.length :=
      hinv row (List.mem_iff_getElem?.2 ⟨_, hrow⟩)
    refine ⟨hrl ▸ hlt, ⟨_, hget, hname, by simp [hrl], ?_⟩, hother⟩
    intro j hj
    rw [hrow]
    exact List.getElem?_set_ne (Ne.symm hj)
  · have e := add_or_retrieve_row_of_not_mem globals columns_vector table m hmem
    rw [e] at hrow hother hpos
    simp only at hpos hrow
    rw [hpos] at hrow
    have hr : row = new_row globals columns_vector m := by
      simpa using hrow.symm
    have hrl : row.locals.length = columns_vector.length := by
      rw [hr]
      simp [new_row, hlen]
    refine ⟨hrl ▸ hlt, ⟨_, hget, hname, by simp [hrl], ?_⟩, ?_⟩
    · intro j hj
      have hnone : table[find_if table1 (fun row => decide (row.name = sub m 1))]? = none := by
        rw [hpos]
        simp
      rw [hnone]
      simp only
      rw [List.getElem?_set_ne (Ne.symm hj), hr]
      simp [new_row, hlen]
    · intro q hq
      rw [hother q hq]
      rw [hpos] at hq
      by_cases hql : q < table.length
      · exact List.getElem?_append_left hql
      · have hgt : table.length < q := by omega
        rw [List.getElem?_eq_none (by simp; omega), List.getElem?_eq_none (by omega)]

/-- Scenario D: `adder-00.real` and then `adder-01.real`, under the column spec
`00=Col 1,01=Col 2`. -/
theorem columns_populated_independently_witness :
    two_columns ≠ []
      ∧ scan cast_3_5 [("Lines".toList, 'u')] two_columns column_00_dir = .ok column_00_table
      ∧ process_entry cast_3_5 [("Lines".toList, 'u')] two_columns column_00_table
          column_01_entry = .ok column_01_table
      ∧ column_index two_columns adder_01 < two_columns.length
      ∧ (∃ row,
          column_01_table[find_if column_01_table
              (fun row => decide (row.name = sub adder_01 1))]? = some row
          ∧ row.name = sub adder_01 1
          ∧ row.locals.length = two_columns.length
          ∧ ∀ j, j ≠ column_index two_columns adder_01 →
              row.locals[j]?
                = match column_00_table[find_if column_01_table
                      (fun row => decide (row.name = sub adder_01 1))]? with
                  | some old => old.locals[j]?
                  | none => (List.replicate two_columns.length column_t_default)[j]?)
      ∧ ∀ q, q ≠ find_if column_01_table (fun row => decide (row.name = sub adder_01 1)) →
          column_01_table[q]? = column_00_table[q]? :=
  ⟨by decide, by decide, by decide,
    columns_populated_independently cast_3_5 [("Lines".toList, 'u')] two_columns column_00_dir
      column_00_table column_01_table column_01_entry adder_01 (by decide) (by decide)
      (by decide) rfl (by decide) (by decide)⟩

/-- C9. Generic renderer width: in a `benchmark_table` built from `k` column
labels to which rows of `k` fields have been added, every `add` succeeds and,
for every `i < k`, `lengths[i]` is the maximum of the length of label `i` and
of the lengths of the stringified field `i` of all added rows. -/
theorem lengths_are_column_maxima (column_names : List Str) (rows : List (List field))
    (h : ∀ row ∈ rows, row.length = column_names.length) :
    ∃ t, (benchmark_table.create column_names).add_all rows = .ok t
      ∧ t.lengths.length = column_names.length
      ∧ ∀ i, i < column_names.length →
          t.lengths[i]? = some (column_width column_names rows i) := by
  obtain ⟨t, ht, _, _, hl, hw⟩ := add_all_spec rows (benchmark_table.create column_names)
    (by simpa [benchmark_table.create] using h)
  refine ⟨t, ht, by simpa [benchmark_table.create] using hl, ?_⟩
  intro i hi
  have h0 : (benchmark_table.create column_names).lengths[i]?
      = some (column_names.getD i []).length := by
    simp [benchmark_table.create, List.getElem?_map, List.getD_eq_getElem?_getD,
      List.getElem?_eq_getElem hi]
  rw [hw i _ h0]
  rfl

/-- The labels `name`, `n` and the rows `adder`, 1234 and `x`, 5: the widths
are 5 and 4. -/
theorem lengths_are_column_maxima_witness :
    (∀ row ∈ name_gates_rows, row.length = ["name".toList, "n".toList].length)
      ∧ column_width ["name".toList, "n".toList] name_gates_rows 0 = 5
      ∧ column_width ["name".toList, "n".toList] name_gates_rows 1 = 4
      ∧ ∃ t, (benchmark_table.create ["name".toList, "n".toList]).add_all name_gates_rows
            = .ok t
        ∧ t.lengths.length = ["name".toList, "n".toList].length
        ∧ ∀ i, i < ["name".toList, "n".toList].length →
            t.lengths[i]? = some (column_width ["name".toList, "n".toList] name_gates_rows i) :=
  ⟨by decide, by decide, by decide,
    lengths_are_column_maxima ["name".toList, "n".toList] name_gates_rows (by decide)⟩

/-! ## Decimal digits of an unsigned -/

theorem digitChar_mem_decimal_digits :
    ∀ k, k < 10 → Nat.digitChar k ∈ decimal_digits ∧ digit_value (Nat.digitChar k) = some k := by
  decide

theorem toDigitsCore_mem (f : Nat) : ∀ (n : Nat) (ds : List Char) (c : Char),
    c ∈ Nat.toDigitsCore 10 f n ds → c ∈ ds ∨ c ∈ decimal_digits := by
  induction f with
  | zero => intro n ds c h; exact Or.inl (by simpa [Nat.toDigitsCore] using h)
  | succ f ih =>
    intro n ds c h
    have hd := (digitChar_mem_decimal_digits (n % 10) (Nat.mod_lt _ (by decide))).1
    simp only [Nat.toDigitsCore] at h
    split at h
    · rcases List.mem_cons.1 h with h | h
      · exact Or.inr (h ▸ hd)
      · exact Or.inl h
    · rcases ih _ _ _ h with h | h
      · rcases List.mem_cons.1 h with h | h
        · exact Or.inr (h ▸ hd)
        · exact Or.inl h
      · exact Or.inr h

theorem toDigitsCore_ne_nil (f : Nat) : ∀ (n : Nat) (ds : List Char), ds ≠ [] →
    Nat.toDigitsCore 10 f n ds ≠ [] := by
  induction f with
  | zero => intro n ds h; simpa [Nat.toDigitsCore] using h
  | succ f ih =>
    intro n ds h
    simp only [Nat.toDigitsCore]
    split
    · simp
    · exact ih _ _ (by simp)

theorem toDigits_ne_nil (n : Nat) : Nat.toDigits 10 n ≠ [] := by
  simp only [Nat.toDigits, Nat.toDigitsCore]
  split
  · simp
  · exact toDigitsCore_ne_nil _ _ _ (by simp)

theorem toDigits_length_le (n : Nat) (h : n < 2 ^ 32) : (Nat.toDigits 10 n).length ≤ 10 :=
  Nat.toDigitsCore_length 10 (by decide) (n + 1) n 10 (by omega) (by decide)

/-- Reading the digits written for `n` in front of other digits gives the
value those digits have after `n`. -/
theorem digits_value_toDigitsCore (f : Nat) : ∀ (n : Nat) (ds : List Char), n < f →
    digits_value (Nat.toDigitsCore 10 f n ds) 0 = digits_value ds n := by
  induction f with
  | zero => intro n ds h; omega
  | succ f ih =>
    intro n ds _
    have hd := (digitChar_mem_decimal_digits (n % 10) (Nat.mod_lt _ (by decide))).2
    simp only [Nat.toDigitsCore]
    split
    · rename_i h0
      simp only [digits_value, hd]
      congr 1
      omega
    · rename_i h0
      rw [ih (n / 10) _ (by omega)]
      simp only [digits_value, hd]
      congr 1
      omega

theorem digits_value_toDigits (n : Nat) : digits_value (Nat.toDigits 10 n) 0 = some n := by
  unfold Nat.toDigits
  rw [digits_value_toDigitsCore (n + 1) n [] (by omega)]
  rfl

/-- C11. Unsigned cell formatting: for every `unsigned` value `n`, below
`2 ^ 32`, the integer field `%10d` of the fixed-format printer is exactly 10
characters long and consists of blanks followed by the decimal digits of `n`,
of which there are between one and ten, without a decimal point; it is the
field printed for an unsigned global cell and for the count of a local
column. -/
theorem unsigned_field_is_ten_wide (n : Nat) (h : n < 2 ^ 32) :
    (format_unsigned 10 n).length = 10
      ∧ format_unsigned 10 n
          = List.replicate (10 - (Nat.toDigits 10 n).length) ' ' ++ Nat.toDigits 10 n
      ∧ 1 ≤ (Nat.toDigits 10 n).length ∧ (Nat.toDigits 10 n).length ≤ 10
      ∧ (∀ c ∈ Nat.toDigits 10 n, c ∈ decimal_digits)
      ∧ digits_value (Nat.toDigits 10 n) 0 = some n
      ∧ '.' ∉ format_unsigned 10 n
      ∧ ∀ (fmtF : float_format) (d : Double),
          print_global fmtF (entry_t.uint n) = format_unsigned 10 n ++ " |".toList
            ∧ print_local fmtF (n, d)
                = ' ' :: format_unsigned 10 n ++ " | ".toList ++ fmtF d ++ " |".toList := by
  have hlen := toDigits_length_le n h
  have hne := toDigits_ne_nil n
  have hmem : ∀ c ∈ Nat.toDigits 10 n, c ∈ decimal_digits := by
    intro c hc
    rcases toDigitsCore_mem _ _ _ _ hc with h | h
    · simp at h
    · exact h
  refine ⟨?_, rfl, ?_, hlen, hmem, digits_value_toDigits n, ?_, fun _ _ => ⟨rfl, rfl⟩⟩
  · simp only [format_unsigned, pad_left, List.length_append, List.length_replicate]
    omega
  · cases hd : Nat.toDigits 10 n with
    | nil => exact absurd hd hne
    | cons _ _ => simp
  · intro hdot
    simp only [format_unsigned, pad_left, List.mem_append, List.mem_replicate] at hdot
    rcases hdot with ⟨_, hdot⟩ | hdot
    · exact absurd hdot (by decide)
    · exact absurd (hmem _ hdot) (by decide)

/-- The largest `unsigned`, 4294967295, fills the field. -/
theorem unsigned_field_is_ten_wide_witness :
    4294967295 < 2 ^ 32
      ∧ format_unsigned 10 4294967295 = "4294967295".toList
      ∧ format_unsigned 10 42 = "        42".toList
      ∧ (format_unsigned 10 4294967295).length = 10 :=
  ⟨by decide, by decide, by decide, (unsigned_field_is_ten_wide 4294967295 (by decide)).1⟩

/-! ## Pairs without their separator -/

theorem split_string_pair_error (s : Str) (sep : Char) (h : sep ∉ s) :
    split_string_pair s sep = .error .format_error := by
  simp [split_string_pair, h]

/-- A `foreach_string` whose closure fails on some piece fails. -/
theorem foldlM_collect_error {α β : Type} (g : Str → Except fault α) (h : α → β)
    (l : List Str) (hg : ∀ s e, g s = .error e → e = .format_error)
    (hbad : ∃ s ∈ l, ∃ e, g s = .error e) (init : List β) :
    l.foldlM (fun (vec : List β) s => do
        let p ← g s
        pure (vec ++ [h p])) init
      = .error .format_error := by
  induction l generalizing init with
  | nil =>
    obtain ⟨s, hs, _⟩ := hbad
    simp at hs
  | cons s rest ih =>
    rw [List.foldlM_cons]
    cases hs : g s with
    | error e =>
      simp only [bind, Except.bind]
      rw [hg s e hs]
    | ok a =>
      simp only [bind, Except.bind, pure, Except.pure]
      apply ih
      obtain ⟨t, ht, e, hte⟩ := hbad
      rcases List.mem_cons.1 ht with h1 | h1
      · rw [h1, hs] at hte
        cases hte
      · exact ⟨t, h1, e, hte⟩

/-- C12, the claim fails: the spec string `Lines:x`, whose type tag is neither
`u` nor `f`, is not rejected; it parses to `Lines` with the tag `x`. -/
theorem unknown_type_tag_is_accepted :
    parse_label_type_string "Lines:x".toList = .ok [("Lines".toList, 'x')]
      ∧ parse_label_type_string "Lines:x".toList ≠ .error .format_error := by
  decide

/-- C12, amended. Property spec parsing rejects a missing separator and nothing
else: a non-empty spec string in which some comma-separated piece lacks a `:`
fails with a FormatError; the type tag is not checked, so the text of any
list of `name:tag` pairs joined by commas, whatever the tags, parses to the
names with the first characters of the tags. -/
theorem parse_label_type_string_rejects_missing_colon :
    (∀ pieces : List Str, (∀ s ∈ pieces, ',' ∉ s) → (∃ s ∈ pieces, ':' ∉ s) →
        join_with ',' pieces ≠ [] →
        parse_label_type_string (join_with ',' pieces) = .error .format_error)
      ∧ (∀ pairs : List (Str × Str),
          (∀ p ∈ pairs, ',' ∉ p.1 ∧ ':' ∉ p.1 ∧ ',' ∉ p.2) →
          parse_label_type_string (join_with ',' (pairs.map (pair_text ':')))
            = .ok (pairs.map (fun p => (p.1, first_char p.2)))) := by
  constructor
  · intro pieces hcomma hbad hne
    have hpne : pieces ≠ [] := by
      intro h
      rw [h] at hbad
      simp at hbad
    have hempty : (join_with ',' pieces).isEmpty = false := by
      cases hj : join_with ',' pieces with
      | nil => exact absurd hj hne
      | cons _ _ => rfl
    unfold parse_label_type_string foreach_string
    rw [hempty, split_at_sep_join_with ',' pieces hpne hcomma]
    simp only [Bool.false_eq_true, if_false]
    apply foldlM_collect_error (fun s => split_string_pair s ':')
    · intro s e he
      unfold split_string_pair at he
      split at he
      · cases he
      · cases he
        rfl
    · obtain ⟨s, hs, hcolon⟩ := hbad
      exact ⟨s, hs, _, split_string_pair_error s ':' hcolon⟩
  · intro pairs hp
    cases pairs with
    | nil => rfl
    | cons x rest =>
      unfold parse_label_type_string
      have hne : (join_with ',' ((x :: rest).map (pair_text ':'))).isEmpty = false := by
        have := join_with_pair_text_ne_nil ',' ':' x rest
        cases hj : join_with ',' ((x :: rest).map (pair_text ':')) with
        | nil => exact absurd hj this
        | cons _ _ => rfl
      rw [hne]
      simp only [Bool.false_eq_true, if_false]
      exact foreach_pairs ',' ':' (by decide) (fun p => (p.1, first_char p.2)) (x :: rest)
        hp (by simp)

/-- The spec strings `Lines:u,Runtime` and `Lines:x,Runtime:float`. -/
theorem parse_label_type_string_rejects_missing_colon_witness :
    join_with ',' ["Lines:u".toList, "Runtime".toList] = "Lines:u,Runtime".toList
      ∧ parse_label_type_string (join_with ',' ["Lines:u".toList, "Runtime".toList])
          = .error .format_error
      ∧ parse_label_type_string (join_with ','
            ([("Lines".toList, "x".toList), ("Runtime".toList, "float".toList)].map
              (pair_text ':')))
          = .ok ([("Lines".toList, "x".toList), ("Runtime".toList, "float".toList)].map
              (fun p => (p.1, first_char p.2))) :=
  ⟨by decide,
    parse_label_type_string_rejects_missing_colon.1 ["Lines:u".toList, "Runtime".toList]
      (by decide) (by decide) (by decide),
    parse_label_type_string_rejects_missing_colon.2
      [("Lines".toList, "x".toList), ("Runtime".toList, "float".toList)] (by decide)⟩

/-- C13. An unmatched column discriminator on the code: under the column spec
`00=Col 1,01=Col 2` the file `adder-02.real` is not skipped. Its row is
created, its column index is 2, the number of declared columns, and the write
of the scratch entry to `locals[2]` is past the end of the row's two local
columns. In general, when no declared column has the discriminator as its id
and the rows have one local column per declared column, the entry is never
processed into a table. -/
theorem unmatched_column_is_out_of_range :
    add_or_retrieve_row [("Lines".toList, 'u')] two_columns [] adder_02
        = ([⟨"adder".toList, [entry_t.uint 0], [(0, Double.zero), (0, Double.zero)]⟩], 0)
      ∧ column_index two_columns adder_02 = 2
      ∧ process_entry cast_3_5 [("Lines".toList, 'u')] two_columns []
          ⟨some adder_02, some ["Gates: 7".toList]⟩ = .error .out_of_range
      ∧ scan cast_3_5 [("Lines".toList, 'u')] two_columns
          [⟨some adder_02, some ["Gates: 7".toList]⟩, column_01_entry] = .error .out_of_range
      ∧ ∀ (castD : double_cast) (globals : label_type_vector_t)
          (columns_vector : columns_vector_t) (table table1 : table_t) (f : dir_entry)
          (m : smatch),
          f.m = some m → m.length = 3 → (∀ p ∈ columns_vector, p.1 ≠ sub m 2) →
          (∀ row ∈ table, row.locals.length = columns_vector.length) →
          process_entry castD globals columns_vector table f ≠ .ok table1 := by
  refine ⟨by decide, by decide, by decide, by decide, ?_⟩
  intro castD globals columns_vector table table1 f m hm hlen hnone hinv h
  have hidx : column_index columns_vector m = columns_vector.length := by
    simp only [column_index, hlen, beq_self_eq_true, if_true, find_if]
    rw [List.findIdx_eq_length]
    intro p hp
    simp [first_matches, hnone p hp]
  have hinv1 := process_entry_locals_length castD globals columns_vector table table1 f
    (fun m1 hm1 => by rw [hm] at hm1; cases hm1; exact hlen) hinv h
  obtain ⟨row, _, _, _, _, _, hlt, hget, _⟩ :=
    process_entry_row castD globals columns_vector table table1 f m hm h
  have hmem := List.mem_iff_getElem?.2 ⟨_, hget⟩
  have := hinv1 _ hmem
  simp only [List.length_set] at this
  omega

/-- The file `adder-02.real` on the empty table: it is not processed into a
table. -/
theorem unmatched_column_is_out_of_range_witness :
    (∀ p ∈ two_columns, p.1 ≠ sub adder_02 2)
      ∧ process_entry cast_3_5 [("Lines".toList, 'u')] two_columns []
          ⟨some adder_02, some ["Gates: 7".toList]⟩ ≠ .ok [] :=
  ⟨by decide,
    unmatched_column_is_out_of_range.2.2.2.2 cast_3_5 [("Lines".toList, 'u')] two_columns [] []
      ⟨some adder_02, some ["Gates: 7".toList]⟩ adder_02 rfl (by decide) (by decide)
      (by simp)⟩

/-! ## Conversion failures -/

/-- A line whose value cannot be converted makes the handler fail, whatever
the state. -/
theorem log_handler_error_of_conversion_failure (castD : double_cast)
    (globals : label_type_vector_t) (m : smatch) (st : List entry_t × column_t)
    (h : conversion_failure castD globals m) :
    ∃ e, log_handler castD globals m st = .error e := by
  cases hx : log_handler castD globals m st with
  | error e => exact ⟨e, rfl⟩
  | ok st1 =>
    exfalso
    obtain ⟨hg, hl⟩ := (log_handler_eq_ok castD globals m st st1).1 hx
    rcases h with ⟨spec, hspec, hc⟩ | ⟨hr, e, he⟩ | ⟨hgt, e, he⟩
    · simp only [store_global, hspec, bind, Except.bind] at hg
      rcases hc with ⟨hu, e, he⟩ | ⟨hu, e, he⟩
      · simp [hu, he, Except.map] at hg
      · simp [hu, he] at hg
    · simp [store_local, hr, he, bind, Except.bind] at hl
    · have hne : "Gates".toList ≠ "Runtime".toList := by decide
      simp [store_local, hgt, hne, he, bind, Except.bind] at hl

theorem foldlM_error_of_mem {σ α : Type} (step : σ → α → Except fault σ) (l : List α)
    (x : α) (hx : x ∈ l) (hfail : ∀ st, ∃ e, step st x = .error e) (st : σ) :
    ∃ e, l.foldlM step st = .error e := by
  induction l generalizing st with
  | nil => simp at hx
  | cons y rest ih =>
    rw [List.foldlM_cons]
    cases hy : step st y with
    | error e => exact ⟨e, rfl⟩
    | ok st1 =>
      simp only [bind, Except.bind]
      rcases List.mem_cons.1 hx with h | h
      · obtain ⟨e, he⟩ := hfail st
        rw [h, hy] at he
        cases he
      · exact ih h st1

/-- An entry whose log has a line with a conversion failure is not processed
into a table. -/
theorem process_entry_error_of_conversion_failure (castD : double_cast)
    (globals : label_type_vector_t) (columns_vector : columns_vector_t) (table : table_t)
    (f : dir_entry) (m mm : smatch) (line : Str)
    (hm : f.m = some m) (hline : line ∈ log_lines f)
    (hmatch : key_value_regex line = some mm)
    (hfail : conversion_failure castD globals mm) :
    ∃ e, process_entry castD globals columns_vector table f = .error e := by
  cases hp : process_entry castD globals columns_vector table f with
  | error e => exact ⟨e, rfl⟩
  | ok table1 =>
    exfalso
    obtain ⟨row, st, _, _, _, hlog, _⟩ :=
      process_entry_row castD globals columns_vector table table1 f m hm hp
    obtain ⟨e, he⟩ := foldlM_error_of_mem (log_step castD globals) (log_lines f) line hline
      (fun st => by
        simp only [log_step, hmatch]
        exact log_handler_error_of_conversion_failure castD globals mm st hfail)
      (row.globals, column_t_default)
    rw [he] at hlog
    cases hlog

/-- C14, the claim fails: the first log of `bad_gates_dir` has the line
`Gates: foo` after `Gates: 7`; the scan does not go on to the second file and
leaves no table, it ends with the uncaught `bad_lexical_cast`, and nothing is
printed. -/
theorem conversion_failure_is_not_local :
    scan cast_3_5 [("Lines".toList, 'u')] [] bad_gates_dir = .error .bad_lexical_cast
      ∧ main_output cast_3_5 format_3_5 [] "Lines:u".toList "Gates:u,Runtime:f".toList
          bad_gates_dir = .error .bad_lexical_cast
      ∧ ∀ table, scan cast_3_5 [("Lines".toList, 'u')] [] bad_gates_dir ≠ .ok table := by
  have h : scan cast_3_5 [("Lines".toList, 'u')] [] bad_gates_dir = .error .bad_lexical_cast := by
    decide
  refine ⟨h, by decide, ?_⟩
  intro table ht
  rw [h] at ht
  cases ht

/-- C14, amended. A numeric conversion failure ends the whole run: when a line
of the log of some matched file of the directory has a value text that cannot
be converted to the numeric type required for its key, the scan leaves no
table, whatever the other files are, and `main` prints nothing. -/
theorem conversion_failure_aborts_scan (castD : double_cast) (fmtF : float_format)
    (columns global loc : Str) (globals : label_type_vector_t)
    (columns_vector : columns_vector_t) (dir : List dir_entry) (f : dir_entry)
    (m mm : smatch) (line : Str)
    (hglobal : parse_label_type_string global = .ok globals)
    (hcolumns : parse_columns columns = .ok columns_vector)
    (hf : f ∈ dir) (hm : f.m = some m) (hline : line ∈ log_lines f)
    (hmatch : key_value_regex line = some mm)
    (hfail : conversion_failure castD globals mm) :
    (∃ e, scan castD globals columns_vector dir = .error e)
      ∧ ∃ e, main_output castD fmtF columns global loc dir = .error e := by
  have hscan : ∃ e, scan castD globals columns_vector dir = .error e :=
    foldlM_error_of_mem (process_entry castD globals columns_vector) dir f hf
      (fun table => process_entry_error_of_conversion_failure castD globals columns_vector
        table f m mm line hm hline hmatch hfail) []
  refine ⟨hscan, ?_⟩
  obtain ⟨e, he⟩ := hscan
  simp only [main_output, main_table, hglobal, hcolumns, bind, Except.bind]
  cases parse_label_type_string loc with
  | error e1 => exact ⟨e1, rfl⟩
  | ok l =>
    simp only [he]
    exact ⟨e, rfl⟩

/-- The directory `bad_gates_dir`: its line `Gates: foo` is a conversion
failure. -/
theorem conversion_failure_aborts_scan_witness :
    lexical_cast_unsigned "foo".toList = .error .bad_lexical_cast
      ∧ (∃ e, scan cast_3_5 [("Lines".toList, 'u')] [] bad_gates_dir = .error e)
      ∧ ∃ e, main_output cast_3_5 format_3_5 [] "Lines:u".toList "Gates:u,Runtime:f".toList
          bad_gates_dir = .error e :=
  ⟨by decide,
    conversion_failure_aborts_scan cast_3_5 format_3_5 [] "Lines:u".toList
      "Gates:u,Runtime:f".toList [("Lines".toList, 'u')] [] bad_gates_dir
      ⟨some ["adder.real".toList, "adder".toList],
        some ["Gates: 7".toList, "Gates: foo".toList]⟩
      ["adder.real".toList, "adder".toList]
      ["Gates: foo".toList, "Gates".toList, "foo".toList] "Gates: foo".toList
      (by decide) (by decide) (by decide) rfl (by decide) (by decide)
      (Or.inr (Or.inr ⟨by decide, .bad_lexical_cast, by decide⟩))⟩

/-! ## One line of a log -/

theorem key_value_regex_sub (line : Str) (m : smatch) (h : key_value_regex line = some m) :
    sub m 1 = line_key line := by
  unfold key_value_regex at h
  split at h
  · simp only at h
    split at h
    · cases h
    · cases h
      rfl
  · cases h

theorem key_value_regex_none (line : Str) (h : ':' ∉ line) : key_value_regex line = none := by
  simp [key_value_regex, h]

/-- The first statement of the handler does nothing for a key that is not the
name of a global property. -/
theorem store_global_of_not_mem (castD : double_cast) (globals : label_type_vector_t)
    (m : smatch) (row_globals : List entry_t) (h : sub m 1 ∉ globals.map Prod.fst) :
    store_global castD globals m row_globals = .ok row_globals := by
  have hf : find_if globals (first_matches (sub m 1)) = globals.length := by
    unfold find_if
    rw [List.findIdx_eq_length]
    intro p hp
    have : p.1 ≠ sub m 1 := fun e => h (List.mem_map.2 ⟨p, hp, e⟩)
    simp [first_matches, this]
  simp [store_global, hf]

/-- The first statement of the handler for a key that is the name of a global
property: the slot of the first property with that name takes the converted
value. -/
theorem store_global_of_some (castD : double_cast) (globals : label_type_vector_t)
    (m : smatch) (row_globals : List entry_t) (spec : Str × Char) (v : Double)
    (hspec : globals[find_if globals (first_matches (sub m 1))]? = some spec)
    (hv : global_conversion castD spec (sub m 2) = .ok v)
    (hi : find_if globals (first_matches (sub m 1)) < row_globals.length) :
    store_global castD globals m row_globals
      = .ok (row_globals.set (find_if globals (first_matches (sub m 1))) (entry_t.dbl v)) := by
  unfold global_conversion at hv
  simp only [store_global, hspec, bind, Except.bind, vector_set, hi, if_true]
  by_cases hu : spec.2 = 'u'
  · simp only [hu, if_true] at hv ⊢
    rw [hv]
  · simp only [hu, if_false] at hv ⊢
    rw [hv]

/-- The position found for a key is that of the first global property with
the key as its name. -/
theorem find_if_first_matches_spec (globals : label_type_vector_t) (key : Str)
    (spec : Str × Char)
    (hspec : globals[find_if globals (first_matches key)]? = some spec) :
    spec.1 = key
      ∧ ∀ j q, j < find_if globals (first_matches key) → globals[j]? = some q → q.1 ≠ key := by
  obtain ⟨hlt, hget⟩ := List.getElem?_eq_some.1 hspec
  constructor
  · have := @List.findIdx_getElem _ (first_matches key) globals hlt
    rw [← hget]
    simpa [first_matches] using this
  · intro j q hj hq
    obtain ⟨hjl, rfl⟩ := List.getElem?_eq_some.1 hq
    have := @List.not_of_lt_findIdx _ (first_matches key) globals j hj
    simpa [first_matches] using this

/-- C15. Unrelated lines are ignored: a line without a colon, and a line whose
key, the text before its first colon, is not the name of a declared global
property and is neither `Gates` nor `Runtime`, leaves the row's globals and
the scratch entry as they are, whatever its value text. -/
theorem unrelated_lines_are_ignored (castD : double_cast) (globals : label_type_vector_t)
    (st : List entry_t × column_t) (line : Str)
    (h : ':' ∉ line
      ∨ (line_key line ∉ globals.map Prod.fst ∧ line_key line ≠ "Runtime".toList
          ∧ line_key line ≠ "Gates".toList)) :
    apply_rules [(key_value_regex, log_handler castD globals)] st line = .ok st := by
  rw [apply_rules_eq_log_step]
  unfold log_step
  cases hk : key_value_regex line with
  | none => rfl
  | some m =>
    rcases h with h | ⟨hg, hr, hgt⟩
    · rw [key_value_regex_none line h] at hk
      cases hk
    · have hkey := key_value_regex_sub line m hk
      rw [← hkey] at hg hr hgt
      simp only
      rw [log_handler_eq_ok]
      refine ⟨store_global_of_not_mem castD globals m st.1 hg, ?_⟩
      simp only [store_local, hr, hgt, if_false]

/-- Scenario E: the line `Unrelated: foo` under the global spec `Lines:u`. -/
theorem unrelated_lines_are_ignored_witness :
    line_key "Unrelated: foo".toList = "Unrelated".toList
      ∧ apply_rules [(key_value_regex, log_handler cast_3_5 [("Lines".toList, 'u')])]
          ([entry_t.uint 0], (42, Double.zero)) "Unrelated: foo".toList
        = .ok ([entry_t.uint 0], (42, Double.zero)) :=
  ⟨by decide,
    unrelated_lines_are_ignored cast_3_5 [("Lines".toList, 'u')]
      ([entry_t.uint 0], (42, Double.zero)) "Unrelated: foo".toList (Or.inr (by decide))⟩

/-- C20. Global and local dispatch are not exclusive: for a matched line whose
key is the name of a declared global property, the handler writes the converted
value into the slot of the first property with that name, and into no other
slot; when the key is `Runtime` it also sets the duration of the scratch entry,
and when the key is `Gates` it also sets its count. -/
theorem global_and_local_dispatch_both_apply (castD : double_cast)
    (globals : label_type_vector_t) (m : smatch) (st : List entry_t × column_t)
    (spec : Str × Char) (v : Double)
    (hspec : globals[find_if globals (first_matches (sub m 1))]? = some spec)
    (hv : global_conversion castD spec (sub m 2) = .ok v)
    (hi : find_if globals (first_matches (sub m 1)) < st.1.length) :
    (∀ d, sub m 1 = "Runtime".toList → castD (sub m 2) = .ok d →
        log_handler castD globals m st
          = .ok (st.1.set (find_if globals (first_matches (sub m 1))) (entry_t.dbl v),
              (st.2.1, d)))
      ∧ (∀ u, sub m 1 = "Gates".toList → lexical_cast_unsigned (sub m 2) = .ok u →
        log_handler castD globals m st
          = .ok (st.1.set (find_if globals (first_matches (sub m 1))) (entry_t.dbl v),
              (u, st.2.2)))
      ∧ spec.1 = sub m 1
      ∧ (∀ j q, j < find_if globals (first_matches (sub m 1)) → globals[j]? = some q →
          q.1 ≠ sub m 1)
      ∧ ∀ j, j ≠ find_if globals (first_matches (sub m 1)) →
          (st.1.set (find_if globals (first_matches (sub m 1))) (entry_t.dbl v))[j]? = st.1[j]? := by
  have hg := store_global_of_some castD globals m st.1 spec v hspec hv hi
  have hfirst := find_if_first_matches_spec globals (sub m 1) spec hspec
  have hne : "Gates".toList ≠ "Runtime".toList := by decide
  refine ⟨?_, ?_, hfirst.1, hfirst.2, fun j hj => List.getElem?_set_ne (Ne.symm hj)⟩
  · intro d hr hd
    rw [log_handler_eq_ok]
    refine ⟨hg, ?_⟩
    simp [store_local, hr, hd, bind, Except.bind, pure, Except.pure]
  · intro u hgt hu
    rw [log_handler_eq_ok]
    refine ⟨hg, ?_⟩
    simp [store_local, hgt, hne, hu, bind, Except.bind, pure, Except.pure]

/-- The line `Runtime: 3.5` under a global spec that declares `Runtime` twice:
the first slot and the duration are set, the second slot is not. -/
theorem global_and_local_dispatch_both_apply_witness :
    find_if [("Runtime".toList, 'f'), ("Runtime".toList, 'f')]
        (first_matches (sub runtime_3_5 1)) = 0
      ∧ log_handler cast_3_5 [("Runtime".toList, 'f'), ("Runtime".toList, 'f')] runtime_3_5
          ([entry_t.uint 0, entry_t.uint 0], (9, Double.zero))
        = .ok ([entry_t.dbl ⟨0x400C000000000000⟩, entry_t.uint 0],
            (9, ⟨0x400C000000000000⟩))
      ∧ ∀ d, sub runtime_3_5 1 = "Runtime".toList → cast_3_5 (sub runtime_3_5 2) = .ok d →
        log_handler cast_3_5 [("Runtime".toList, 'f'), ("Runtime".toList, 'f')] runtime_3_5
            ([entry_t.uint 0, entry_t.uint 0], (9, Double.zero))
          = .ok (([entry_t.uint 0, entry_t.uint 0], ((9 : Nat), Double.zero)).1.set
                (find_if [("Runtime".toList, 'f'), ("Runtime".toList, 'f')]
                  (first_matches (sub runtime_3_5 1)))
                (entry_t.dbl ⟨0x400C000000000000⟩),
              (([entry_t.uint 0, entry_t.uint 0], ((9 : Nat), Double.zero)).2.1, d)) :=
  ⟨by decide, by decide,
    (global_and_local_dispatch_both_apply cast_3_5
      [("Runtime".toList, 'f'), ("Runtime".toList, 'f')] runtime_3_5
      ([entry_t.uint 0, entry_t.uint 0], (9, Double.zero)) ("Runtime".toList, 'f')
      ⟨0x400C000000000000⟩ (by decide) (by decide) (by decide)).1⟩

/-! ## The globals of a row after a log -/

/-- The first statement of the handler, with the conversion named. -/
theorem store_global_eq (castD : double_cast) (globals : label_type_vector_t) (m : smatch)
    (g : List entry_t) :
    store_global castD globals m g
      = match globals[find_if globals (first_matches (sub m 1))]? with
        | some spec =>
          match global_conversion castD spec (sub m 2) with
          | .error e => .error e
          | .ok v => vector_set g (find_if globals (first_matches (sub m 1))) (entry_t.dbl v)
        | none => .ok g := by
  unfold store_global global_conversion
  simp only
  cases globals[find_if globals (first_matches (sub m 1))]? with
  | none => rfl
  | some spec =>
    simp only
    by_cases hu : spec.2 = 'u'
    · simp only [hu, if_true, bind, Except.bind]
      cases Except.map to_double (lexical_cast_unsigned (sub m 2)) <;> rfl
    · simp only [hu, if_false, bind, Except.bind]
      cases castD (sub m 2) <;> rfl

/-- The global entries after the first statement of the handler. -/
theorem store_global_get (castD : double_cast) (globals : label_type_vector_t) (m : smatch)
    (g g1 : List entry_t) (h : store_global castD globals m g = .ok g1) (i : Nat)
    (spec : Str × Char) (hspec : globals[i]? = some spec) :
    (find_if globals (first_matches (sub m 1)) = i →
        ∃ v, global_conversion castD spec (sub m 2) = .ok v ∧ g1[i]? = some (entry_t.dbl v))
      ∧ (find_if globals (first_matches (sub m 1)) ≠ i → g1[i]? = g[i]?) := by
  rw [store_global_eq] at h
  cases hs : globals[find_if globals (first_matches (sub m 1))]? with
  | none =>
    rw [hs] at h
    cases h
    refine ⟨fun hi => ?_, fun _ => rfl⟩
    rw [hi, hspec] at hs
    cases hs
  | some spec1 =>
    rw [hs] at h
    simp only at h
    cases hv : global_conversion castD spec1 (sub m 2) with
    | error e => rw [hv] at h; cases h
    | ok v =>
      rw [hv] at h
      simp only [vector_set] at h
      by_cases hlt : find_if globals (first_matches (sub m 1)) < g.length
      · simp only [hlt, if_true] at h
        cases h
        refine ⟨fun hi => ?_, fun hi => List.getElem?_set_ne hi⟩
        rw [hi, hspec] at hs
        cases hs
        refine ⟨v, hv, ?_⟩
        rw [← hi]
        exact List.getElem?_set_self hlt
      · simp only [hlt, if_false] at h
        cases h

/-- The global entries after one line of a log. -/
theorem log_step_global (castD : double_cast) (globals : label_type_vector_t)
    (line : Str) (st st1 : List entry_t × column_t)
    (h : log_step castD globals st line = .ok st1) (i : Nat) (spec : Str × Char)
    (hspec : globals[i]? = some spec) :
    match slot_value globals i line with
    | none => st1.1[i]? = st.1[i]?
    | some t => ∃ v, global_conversion castD spec t = .ok v ∧ st1.1[i]? = some (entry_t.dbl v) := by
  unfold log_step at h
  unfold slot_value
  cases hk : key_value_regex line with
  | none =>
    rw [hk] at h
    cases h
    rfl
  | some m =>
    rw [hk] at h
    simp only at h ⊢
    have hg := ((log_handler_eq_ok castD globals m st st1).1 h).1
    obtain ⟨h1, h2⟩ := store_global_get castD globals m st.1 st1.1 hg i spec hspec
    by_cases hi : find_if globals (first_matches (sub m 1)) = i
    · simp only [hi, if_true]
      exact h1 hi
    · simp only [hi, if_false]
      exact h2 hi

/-- The global entries after a log: the slot `i` holds the conversion of the
value of the last line looked up to it, and is what it was without such a
line. -/
theorem foldlM_log_step_global (castD : double_cast) (globals : label_type_vector_t)
    (lines : List Str) (st st1 : List entry_t × column_t)
    (h : lines.foldlM (log_step castD globals) st = .ok st1) (i : Nat) (spec : Str × Char)
    (hspec : globals[i]? = some spec) :
    match last_slot_value globals i lines with
    | none => st1.1[i]? = st.1[i]?
    | some t => ∃ v, global_conversion castD spec t = .ok v ∧ st1.1[i]? = some (entry_t.dbl v) := by
  induction lines generalizing st with
  | nil =>
    simp only [List.foldlM_nil, pure, Except.pure] at h
    cases h
    rfl
  | cons line rest ih =>
    rw [List.foldlM_cons] at h
    cases hs : log_step castD globals st line with
    | error e => simp [hs, bind, Except.bind] at h
    | ok st2 =>
      simp only [hs, bind, Except.bind] at h
      have i1 := ih st2 h
      have s1 := log_step_global castD globals line st st2 hs i spec hspec
      simp only [last_slot_value]
      cases hl : last_slot_value globals i rest with
      | some t => rw [hl] at i1; exact i1
      | none =>
        rw [hl] at i1
        simp only at i1 ⊢
        cases hk : slot_value globals i line with
        | none => rw [hk] at s1; simp only at s1 ⊢; rw [i1, s1]
        | some t => rw [hk] at s1; simp only at s1 ⊢; rw [i1]; exact s1

/-- For the first global property with its name, the lines looked up to its
position are the lines with its name as key. -/
theorem slot_value_of_first (globals : label_type_vector_t) (i : Nat) (spec : Str × Char)
    (hspec : globals[i]? = some spec)
    (hfirst : find_if globals (first_matches spec.1) = i) (line : Str) :
    slot_value globals i line = key_value spec.1 line := by
  unfold slot_value key_value
  cases hk : key_value_regex line with
  | none => rfl
  | some m =>
    simp only
    by_cases hkey : sub m 1 = spec.1
    · simp [hkey, hfirst]
    · have hne : find_if globals (first_matches (sub m 1)) ≠ i := by
        intro hi
        have hs : globals[find_if globals (first_matches (sub m 1))]? = some spec := by
          rw [hi]
          exact hspec
        exact hkey (find_if_first_matches_spec globals (sub m 1) spec hs).1.symm
      simp only [hne, hkey, if_false]

/-- No line is looked up to the position of a global property that is declared
after another one with the same name. -/
theorem slot_value_of_not_first (globals : label_type_vector_t) (i : Nat) (spec : Str × Char)
    (hspec : globals[i]? = some spec)
    (hfirst : find_if globals (first_matches spec.1) ≠ i) (line : Str) :
    slot_value globals i line = none := by
  unfold slot_value
  cases hk : key_value_regex line with
  | none => rfl
  | some m =>
    simp only
    have hne : find_if globals (first_matches (sub m 1)) ≠ i := by
      intro hi
      have hs : globals[find_if globals (first_matches (sub m 1))]? = some spec := by
        rw [hi]
        exact hspec
      have hkey := (find_if_first_matches_spec globals (sub m 1) spec hs).1
      rw [hkey] at hfirst
      exact hfirst hi
    simp only [hne, if_false]

theorem last_slot_value_congr (globals : label_type_vector_t) (i : Nat) (sel : Str → Option Str)
    (hsel : ∀ line, slot_value globals i line = sel line) (lines : List Str) :
    last_slot_value globals i lines
      = lines.foldr (fun line acc => match acc with
          | some t => some t
          | none => sel line) none := by
  induction lines with
  | nil => rfl
  | cons line rest ih => simp only [last_slot_value, List.foldr_cons, ih, hsel]

theorem last_value_eq_foldr (key : Str) (lines : List Str) :
    last_value key lines
      = lines.foldr (fun line acc => match acc with
          | some t => some t
          | none => key_value key line) none := by
  induction lines with
  | nil => rfl
  | cons line rest ih => simp only [last_value, List.foldr_cons, ih]

theorem last_slot_value_of_first (globals : label_type_vector_t) (i : Nat) (spec : Str × Char)
    (hspec : globals[i]? = some spec)
    (hfirst : find_if globals (first_matches spec.1) = i) (lines : List Str) :
    last_slot_value globals i lines = last_value spec.1 lines := by
  rw [last_slot_value_congr globals i (key_value spec.1)
    (slot_value_of_first globals i spec hspec hfirst) lines, last_value_eq_foldr]

theorem last_slot_value_of_not_first (globals : label_type_vector_t) (i : Nat)
    (spec : Str × Char) (hspec : globals[i]? = some spec)
    (hfirst : find_if globals (first_matches spec.1) ≠ i) (lines : List Str) :
    last_slot_value globals i lines = none := by
  induction lines with
  | nil => rfl
  | cons line rest ih =>
    simp only [last_slot_value, ih, slot_value_of_not_first globals i spec hspec hfirst]

/-- C17, the claim fails: under a global spec that declares `Lines` twice, a
second file of the benchmark `adder` whose log has the line `Lines: 5` sets the
first global cell only; the second global, whose name occurs as a key of that
log, keeps its previous value, the unsigned zero. -/
theorem later_declaration_keeps_previous_value :
    scan cast_3_5 lines_twice [] adder_twice_dir
        = .ok [⟨"adder".toList, [entry_t.dbl (to_double 5), entry_t.uint 0],
            [(0, Double.zero)]⟩]
      ∧ lines_twice[1]? = some ("Lines".toList, 'u')
      ∧ last_value "Lines".toList ["Lines: 5".toList] = some "5".toList
      ∧ scan cast_3_5 lines_twice [] (adder_twice_dir.take 1)
        = .ok [⟨"adder".toList, [entry_t.uint 0, entry_t.uint 0], [(0, Double.zero)]⟩] := by
  decide

/-- C17, amended. Globals accumulate across files with last-write-wins per
field: when a further file is processed for a name that already has a row,
every global whose name does not occur as a key in that file's log keeps its
previous value, every global declared after another global of the same name
keeps its previous value too, and every global that is the first one declared
with its name and whose name does occur takes the converted value of the last
line of that log carrying that key. -/
theorem globals_accumulate_by_first_declaration (castD : double_cast)
    (globals : label_type_vector_t) (columns_vector : columns_vector_t)
    (table table1 : table_t) (f : dir_entry) (m : smatch)
    (hm : f.m = some m) (hmem : sub m 1 ∈ table.map row_t.name)
    (h : process_entry castD globals columns_vector table f = .ok table1) :
    ∃ old new,
      table[find_if table (fun row => decide (row.name = sub m 1))]? = some old
      ∧ table1[find_if table (fun row => decide (row.name = sub m 1))]? = some new
      ∧ old.name = sub m 1 ∧ new.name = sub m 1
      ∧ ∀ i spec, globals[i]? = some spec →
          (last_value spec.1 (log_lines f) = none → new.globals[i]? = old.globals[i]?)
          ∧ (find_if globals (first_matches spec.1) ≠ i → new.globals[i]? = old.globals[i]?)
          ∧ (find_if globals (first_matches spec.1) = i →
              ∀ t, last_value spec.1 (log_lines f) = some t →
                ∃ v, global_conversion castD spec t = .ok v
                  ∧ new.globals[i]? = some (entry_t.dbl v)) := by
  obtain ⟨row, st, hrow, hpos, hname, hlog, _, hget, _⟩ :=
    process_entry_row castD globals columns_vector table table1 f m hm h
  have e := (add_or_retrieve_row_of_mem globals columns_vector table m hmem).1
  rw [e] at hrow hpos
  simp only at hrow hpos
  rw [hpos] at hrow hget
  refine ⟨row, _, hrow, hget, hname, hname, ?_⟩
  intro i spec hspec
  have hfold := foldlM_log_step_global castD globals (log_lines f)
    (row.globals, column_t_default) st hlog i spec hspec
  by_cases hfirst : find_if globals (first_matches spec.1) = i
  · rw [last_slot_value_of_first globals i spec hspec hfirst] at hfold
    refine ⟨fun hnone => ?_, fun hne => absurd hfirst hne, fun _ t ht => ?_⟩
    · rw [hnone] at hfold
      exact hfold
    · rw [ht] at hfold
      exact hfold
  · rw [last_slot_value_of_not_first globals i spec hspec hfirst] at hfold
    exact ⟨fun _ => hfold, fun _ => hfold, fun hf => absurd hf hfirst⟩

/-- The second file of `adder_twice_dir` under the global spec `Lines:u`. -/
theorem globals_accumulate_by_first_declaration_witness :
    process_entry cast_3_5 [("Lines".toList, 'u')] []
        [⟨"adder".toList, [entry_t.uint 0], [(0, Double.zero)]⟩]
        ⟨some ["adder.real".toList, "adder".toList], some ["Lines: 5".toList]⟩
      = .ok [⟨"adder".toList, [entry_t.dbl (to_double 5)], [(0, Double.zero)]⟩]
    ∧ ∃ old new,
      [(⟨"adder".toList, [entry_t.uint 0], [(0, Double.zero)]⟩ : row_t)][
          find_if [(⟨"adder".toList, [entry_t.uint 0], [(0, Double.zero)]⟩ : row_t)]
            (fun row => decide (row.name = sub ["adder.real".toList, "adder".toList] 1))]?
        = some old
      ∧ [(⟨"adder".toList, [entry_t.dbl (to_double 5)], [(0, Double.zero)]⟩ : row_t)][
          find_if [(⟨"adder".toList, [entry_t.uint 0], [(0, Double.zero)]⟩ : row_t)]
            (fun row => decide (row.name = sub ["adder.real".toList, "adder".toList] 1))]?
        = some new
      ∧ old.name = sub ["adder.real".toList, "adder".toList] 1
      ∧ new.name = sub ["adder.real".toList, "adder".toList] 1
      ∧ ∀ i spec, [("Lines".toList, 'u')][i]? = some spec →
          (last_value spec.1 (log_lines
              ⟨some ["adder.real".toList, "adder".toList], some ["Lines: 5".toList]⟩) = none →
            new.globals[i]? = old.globals[i]?)
          ∧ (find_if [("Lines".toList, 'u')] (first_matches spec.1) ≠ i →
            new.globals[i]? = old.globals[i]?)
          ∧ (find_if [("Lines".toList, 'u')] (first_matches spec.1) = i →
              ∀ t, last_value spec.1 (log_lines
                  ⟨some ["adder.real".toList, "adder".toList], some ["Lines: 5".toList]⟩)
                  = some t →
                ∃ v, global_conversion cast_3_5 spec t = .ok v
                  ∧ new.globals[i]? = some (entry_t.dbl v)) :=
  ⟨by decide,
    globals_accumulate_by_first_declaration cast_3_5 [("Lines".toList, 'u')] []
      [⟨"adder".toList, [entry_t.uint 0], [(0, Double.zero)]⟩]
      [⟨"adder".toList, [entry_t.dbl (to_double 5)], [(0, Double.zero)]⟩]
      ⟨some ["adder.real".toList, "adder".toList], some ["Lines: 5".toList]⟩
      ["adder.real".toList, "adder".toList] rfl (by decide) (by decide)⟩

/-- C18. The local property spec has no effect: for any two local spec strings
that parse, and otherwise identical inputs, `main` builds the same table and
prints the same lines; the count of the scratch entry is set by lines with the
key `Gates` only and its duration by lines with the key `Runtime` only. -/
theorem local_spec_has_no_effect (castD : double_cast) (fmtF : float_format)
    (columns global loc1 loc2 : Str) (dir : List dir_entry)
    (l1 l2 : label_type_vector_t)
    (h1 : parse_label_type_string loc1 = .ok l1)
    (h2 : parse_label_type_string loc2 = .ok l2) :
    main_table castD columns global loc1 dir = main_table castD columns global loc2 dir
      ∧ main_output castD fmtF columns global loc1 dir
          = main_output castD fmtF columns global loc2 dir
      ∧ ∀ (globals : label_type_vector_t) (m : smatch) (st st1 : List entry_t × column_t),
          log_handler castD globals m st = .ok st1 →
          (sub m 1 ≠ "Gates".toList → st1.2.1 = st.2.1)
            ∧ (sub m 1 ≠ "Runtime".toList → st1.2.2 = st.2.2) := by
  have ht : main_table castD columns global loc1 dir
      = main_table castD columns global loc2 dir := by
    simp only [main_table, h1, h2, bind, Except.bind]
  refine ⟨ht, ?_, ?_⟩
  · simp only [main_output, ht]
  · intro globals m st st1 h
    obtain ⟨hr, hg, hn⟩ := log_handler_scratch castD globals m st st1 h
    constructor
    · intro hng
      by_cases hrt : sub m 1 = "Runtime".toList
      · exact (hr hrt).2
      · rw [hn hrt hng]
    · intro hnr
      by_cases hgt : sub m 1 = "Gates".toList
      · exact (hg hgt).2
      · rw [hn hnr hgt]

/-- Scenario C under the local specs `Gates:u,Runtime:f` and `Size:u`. -/
theorem local_spec_has_no_effect_witness :
    parse_label_type_string "Gates:u,Runtime:f".toList
        = .ok [("Gates".toList, 'u'), ("Runtime".toList, 'f')]
      ∧ parse_label_type_string "Size:u".toList = .ok [("Size".toList, 'u')]
      ∧ main_output cast_3_5 format_3_5 [] "Lines:u".toList "Size:u".toList scenario_c_dir
          = .ok ["|                adder |      ? |         42 |    3.50 |".toList]
      ∧ main_output cast_3_5 format_3_5 [] "Lines:u".toList "Gates:u,Runtime:f".toList
            scenario_c_dir
          = main_output cast_3_5 format_3_5 [] "Lines:u".toList "Size:u".toList
            scenario_c_dir :=
  ⟨by decide, by decide, by decide,
    (local_spec_has_no_effect cast_3_5 format_3_5 [] "Lines:u".toList
      "Gates:u,Runtime:f".toList "Size:u".toList scenario_c_dir
      [("Gates".toList, 'u'), ("Runtime".toList, 'f')] [("Size".toList, 'u')]
      (by decide) (by decide)).2.1⟩

/-! ## Accesses within bounds -/

theorem in_bounds_bind {α β : Type} (x : Except fault α) (k : α → Except fault β)
    (P : α → Prop) (Q : β → Prop) (hx : in_bounds x P) (hk : ∀ a, P a → in_bounds (k a) Q) :
    in_bounds (x >>= k) Q := by
  cases x with
  | error e => exact hx
  | ok a => exact hk a hx

theorem in_bounds_foldlM {σ α : Type} (step : σ → α → Except fault σ) (P : σ → Prop)
    (l : List α) (hstep : ∀ st x, x ∈ l → P st → in_bounds (step st x) P) (st : σ)
    (hst : P st) : in_bounds (l.foldlM step st) P := by
  induction l generalizing st with
  | nil => exact hst
  | cons x rest ih =>
    rw [List.foldlM_cons]
    apply in_bounds_bind _ _ P P (hstep st x (by simp) hst)
    intro st1 h1
    exact ih (fun st y hy => hstep st y (List.mem_cons_of_mem _ hy)) st1 h1

theorem lexical_cast_unsigned_error (s : Str) (e : fault)
    (h : lexical_cast_unsigned s = .error e) : e = .bad_lexical_cast := by
  unfold lexical_cast_unsigned at h
  simp only at h
  generalize (if s.head? = some '-' ∨ s.head? = some '+' then s.tail else s) = ds at h
  by_cases hds : ds.isEmpty = true
  · rw [if_pos hds] at h
    cases h
    rfl
  · rw [if_neg hds] at h
    cases hd : digits_value ds 0 with
    | none =>
      rw [hd] at h
      cases h
      rfl
    | some v =>
      rw [hd] at h
      simp only at h
      by_cases hv : v < 2 ^ 32
      · rw [if_pos hv] at h
        cases h
      · rw [if_neg hv] at h
        cases h
        rfl

theorem global_conversion_in_bounds (castD : double_cast)
    (hcast : ∀ s, castD s ≠ .error .out_of_range) (spec : Str × Char) (t : Str) :
    in_bounds (global_conversion castD spec t) (fun _ => True) := by
  unfold global_conversion
  by_cases hu : spec.2 = 'u'
  · simp only [hu, if_true]
    cases hc : lexical_cast_unsigned t with
    | error e =>
      simp only [Except.map, in_bounds]
      rw [lexical_cast_unsigned_error t e hc]
      decide
    | ok u => simp only [Except.map, in_bounds]
  · simp only [hu, if_false]
    cases hc : castD t with
    | error e =>
      simp only [in_bounds]
      intro he
      exact hcast t (by rw [hc, he])
    | ok d => simp only [in_bounds]

theorem store_global_in_bounds (castD : double_cast)
    (hcast : ∀ s, castD s ≠ .error .out_of_range) (globals : label_type_vector_t)
    (m : smatch) (g : List entry_t) (hg : g.length = globals.length) :
    in_bounds (store_global castD globals m g) (fun g1 => g1.length = globals.length) := by
  rw [store_global_eq]
  cases hs : globals[find_if globals (first_matches (sub m 1))]? with
  | none => exact hg
  | some spec =>
    simp only
    have hlt : find_if globals (first_matches (sub m 1)) < g.length := by
      rw [hg]
      exact (List.getElem?_eq_some.1 hs).1
    have hconv := global_conversion_in_bounds castD hcast spec (sub m 2)
    cases hv : global_conversion castD spec (sub m 2) with
    | error e =>
      rw [hv] at hconv
      exact hconv
    | ok v =>
      simp only [vector_set, hlt, if_true, in_bounds, List.length_set]
      exact hg

theorem store_local_in_bounds (castD : double_cast)
    (hcast : ∀ s, castD s ≠ .error .out_of_range) (m : smatch) (entry : column_t) :
    in_bounds (store_local castD m entry) (fun _ => True) := by
  unfold store_local
  by_cases hr : sub m 1 = "Runtime".toList
  · simp only [hr, if_true, bind, Except.bind]
    cases hc : castD (sub m 2) with
    | error e =>
      simp only [in_bounds]
      intro he
      exact hcast (sub m 2) (by rw [hc, he])
    | ok d => simp only [in_bounds, pure, Except.pure]
  · simp only [hr, if_false]
    by_cases hg : sub m 1 = "Gates".toList
    · simp only [hg, if_true, bind, Except.bind]
      cases hc : lexical_cast_unsigned (sub m 2) with
      | error e =>
        simp only [in_bounds]
        rw [lexical_cast_unsigned_error _ e hc]
        decide
      | ok u => simp only [in_bounds, pure, Except.pure]
    · simp only [hg, if_false, in_bounds]

theorem log_step_in_bounds (castD : double_cast)
    (hcast : ∀ s, castD s ≠ .error .out_of_range) (globals : label_type_vector_t)
    (st : List entry_t × column_t) (line : Str) (hst : st.1.length = globals.length) :
    in_bounds (log_step castD globals st line) (fun st1 => st1.1.length = globals.length) := by
  unfold log_step
  cases key_value_regex line with
  | none => exact hst
  | some m =>
    simp only [log_handler]
    apply in_bounds_bind _ _ (fun g1 => g1.length = globals.length) _
      (store_global_in_bounds castD hcast globals m st.1 hst)
    intro g1 hg1
    apply in_bounds_bind _ _ (fun _ => True) _ (store_local_in_bounds castD hcast m st.2)
    intro e1 _
    exact hg1

theorem rows_sized_add_or_retrieve_row (globals : label_type_vector_t)
    (columns_vector : columns_vector_t) (n : Nat) (table : table_t) (m : smatch)
    (hinv : rows_sized globals n table)
    (hnew : (new_row globals columns_vector m).locals.length = n) :
    rows_sized globals n (add_or_retrieve_row globals columns_vector table m).1 := by
  by_cases hmem : sub m 1 ∈ table.map row_t.name
  · rw [(add_or_retrieve_row_of_mem globals columns_vector table m hmem).1]
    exact hinv
  · rw [add_or_retrieve_row_of_not_mem globals columns_vector table m hmem]
    intro r hr
    rcases List.mem_append.1 hr with hr | hr
    · exact hinv r hr
    · have : r = new_row globals columns_vector m := by simpa using hr
      rw [this]
      exact ⟨by simp [new_row], hnew⟩

/-- One entry of the directory, on a table whose rows have the sizes of the
configuration, is processed without an access out of range and leaves such a
table. -/
theorem process_entry_in_bounds (castD : double_cast)
    (hcast : ∀ s, castD s ≠ .error .out_of_range) (globals : label_type_vector_t)
    (columns_vector : columns_vector_t) (n : Nat) (table : table_t) (f : dir_entry)
    (hinv : rows_sized globals n table)
    (hf : ∀ m, f.m = some m →
      (new_row globals columns_vector m).locals.length = n ∧ column_index columns_vector m < n) :
    in_bounds (process_entry castD globals columns_vector table f) (rows_sized globals n) := by
  cases hm : f.m with
  | none =>
    rw [process_entry_none castD globals columns_vector table f hm]
    exact hinv
  | some m =>
    obtain ⟨hnew, hidx⟩ := hf m hm
    obtain ⟨row, hrow, _⟩ := prow_spec globals columns_vector table m
    have hinv1 := rows_sized_add_or_retrieve_row globals columns_vector n table m hinv hnew
    have hrowmem : row ∈ (add_or_retrieve_row globals columns_vector table m).1 :=
      List.mem_iff_getElem?.2 ⟨_, hrow⟩
    obtain ⟨hrg, hrl⟩ := hinv1 row hrowmem
    simp only [process_entry, hm, hrow]
    rw [parse_lines_eq_foldlM]
    apply in_bounds_bind _ _ (fun st1 => st1.1.length = globals.length) _
    · exact in_bounds_foldlM (log_step castD globals) (fun st1 => st1.1.length = globals.length)
        (log_lines f) (fun st line _ hst => log_step_in_bounds castD hcast globals st line hst)
        (row.globals, column_t_default) hrg
    · intro st hst
      have hlt : column_index columns_vector m < row.locals.length := by
        rw [hrl]
        exact hidx
      simp only [vector_set, hlt, if_true, bind, Except.bind, pure, Except.pure, in_bounds]
      intro r hr
      rcases List.mem_or_eq_of_mem_set hr with hr | hr
      · exact hinv1 r hr
      · rw [hr]
        exact ⟨hst, by simp [hrl]⟩

theorem print_locals_ok (fmtF : float_format) (locals : List column_t) (k : Nat) :
    ∀ i, i + k ≤ locals.length → ∃ s, print_locals fmtF locals k i = .ok s := by
  induction k with
  | zero => intro i _; exact ⟨[], rfl⟩
  | succ k ih =>
    intro i hi
    have hlt : i < locals.length := by omega
    obtain ⟨rest, hrest⟩ := ih (i + 1) (by omega)
    refine ⟨print_local fmtF locals[i] ++ rest, ?_⟩
    simp only [print_locals, List.getElem?_eq_getElem hlt, hrest, bind, Except.bind, pure,
      Except.pure]

theorem mapM_ok {α β : Type} (f : α → Except fault β) (l : List α)
    (h : ∀ x ∈ l, ∃ y, f x = .ok y) : ∃ ys, l.mapM f = .ok ys := by
  induction l with
  | nil => exact ⟨[], rfl⟩
  | cons x rest ih =>
    obtain ⟨y, hy⟩ := h x (by simp)
    obtain ⟨ys, hys⟩ := ih (fun z hz => h z (List.mem_cons_of_mem _ hz))
    refine ⟨y :: ys, ?_⟩
    rw [List.mapM_cons, hy, hys]
    rfl

/-- A table whose rows have as many local columns as the printing loop reads
is printed. -/
theorem print_table_ok (fmtF : float_format) (columns : Str)
    (columns_vector : columns_vector_t) (globals : label_type_vector_t) (table : table_t)
    (hinv : rows_sized globals (printed_columns columns columns_vector) table) :
    ∃ lines, print_table fmtF columns columns_vector table = .ok lines := by
  apply mapM_ok
  intro row hrow
  obtain ⟨s, hs⟩ := print_locals_ok fmtF row.locals (printed_columns columns columns_vector) 0
    (by rw [(hinv row hrow).2]; omega)
  refine ⟨"| ".toList ++ pad_left 20 row.name ++ " |".toList ++ print_globals fmtF row.globals
    ++ s, ?_⟩
  simp only [print_table_row, hs, bind, Except.bind, pure, Except.pure]

/-- C19. Index safety under a consistent configuration: when the column spec
is empty and every match has one capture group, or the column spec is not
empty and every match has two capture groups, the second being the id of a
declared column, then the scan does not end in an access out of range (every
write to `locals[index]` and to a global entry is within the row's vectors),
every row it leaves has one global entry per global property and as many
local columns as the printing loop reads, and the table is printed. -/
theorem scan_and_print_stay_in_bounds (castD : double_cast) (fmtF : float_format)
    (columns : Str) (columns_vector : columns_vector_t) (globals : label_type_vector_t)
    (dir : List dir_entry)
    (hcast : ∀ s, castD s ≠ .error .out_of_range)
    (hcolumns : parse_columns columns = .ok columns_vector)
    (hconfig : (columns = [] ∧ ∀ f ∈ dir, ∀ m, f.m = some m → m.length = 2)
      ∨ (columns ≠ [] ∧ ∀ f ∈ dir, ∀ m, f.m = some m →
          m.length = 3 ∧ ∃ p ∈ columns_vector, p.1 = sub m 2)) :
    scan castD globals columns_vector dir ≠ .error .out_of_range
      ∧ ∀ table, scan castD globals columns_vector dir = .ok table →
          rows_sized globals (printed_columns columns columns_vector) table
            ∧ ∃ lines, print_table fmtF columns columns_vector table = .ok lines := by
  have hentry : ∀ f ∈ dir, ∀ m, f.m = some m →
      (new_row globals columns_vector m).locals.length
          = printed_columns columns columns_vector
        ∧ column_index columns_vector m < printed_columns columns columns_vector := by
    intro f hf m hm
    rcases hconfig with ⟨hc, hd⟩ | ⟨hc, hd⟩
    · have hlen := hd f hf m hm
      simp [new_row, column_index, printed_columns, hc, hlen]
    · obtain ⟨hlen, p, hp, hid⟩ := hd f hf m hm
      have hne : columns.isEmpty = false := by
        cases columns with
        | nil => exact absurd rfl hc
        | cons _ _ => rfl
      have hfind : find_if columns_vector (first_matches (sub m 2)) < columns_vector.length := by
        unfold find_if
        rw [List.findIdx_lt_length]
        exact ⟨p, hp, by simp [first_matches, hid]⟩
      simp only [new_row, column_index, printed_columns, hlen, hne, beq_self_eq_true, if_true,
        List.length_replicate, Bool.false_eq_true, if_false]
      exact ⟨trivial, hfind⟩
  have _ := hcolumns
  have hsafe : in_bounds (scan castD globals columns_vector dir)
      (rows_sized globals (printed_columns columns columns_vector)) := by
    apply in_bounds_foldlM (process_entry castD globals columns_vector)
      (rows_sized globals (printed_columns columns columns_vector)) dir
    · intro table f hf hinv
      exact process_entry_in_bounds castD hcast globals columns_vector _ table f hinv
        (hentry f hf)
    · intro row hrow
      simp at hrow
  constructor
  · intro he
    rw [he] at hsafe
    exact hsafe rfl
  · intro table ht
    rw [ht] at hsafe
    exact ⟨hsafe, print_table_ok fmtF columns columns_vector globals table hsafe⟩

/-- The files `adder-00.real` and `adder-01.real` under the column spec
`00=Col 1,01=Col 2`. -/
theorem scan_and_print_stay_in_bounds_witness :
    (∀ s, cast_3_5 s ≠ .error .out_of_range)
      ∧ parse_columns "00=Col 1,01=Col 2".toList = .ok two_columns
      ∧ scan cast_3_5 [("Lines".toList, 'u')] two_columns (column_00_dir ++ [column_01_entry])
          = .ok column_01_table
      ∧ print_table format_3_5 "00=Col 1,01=Col 2".toList two_columns column_01_table
          = .ok ["|                adder |         0 |          7 |    0.00 |          9 |    3.50 |".toList]
      ∧ scan cast_3_5 [("Lines".toList, 'u')] two_columns (column_00_dir ++ [column_01_entry])
          ≠ .error .out_of_range :=
  ⟨by intro s; unfold cast_3_5; split <;> decide, by decide, by decide, by decide,
    (scan_and_print_stay_in_bounds cast_3_5 format_3_5 "00=Col 1,01=Col 2".toList two_columns
      [("Lines".toList, 'u')] (column_00_dir ++ [column_01_entry])
      (by intro s; unfold cast_3_5; split <;> decide) (by decide)
      (Or.inr ⟨by decide, by decide⟩)).1⟩

/-! ## Aligned lines -/

theorem aligned_line_nil_right (ws : List Nat) : aligned_line ws [] = ['|'] := by
  cases ws <;> rfl

theorem aligned_cell_length (w : Nat) (s : Str) (h : s.length ≤ w) :
    (aligned_cell w s).length = w + 3 := by
  simp only [aligned_cell, List.length_cons, List.length_append, List.length_replicate,
    List.length_nil]
  omega

theorem fits_of_pointwise (ws : List Nat) : ∀ (cs : List Str), ws.length = cs.length →
    (∀ (i w : Nat) (c : Str), ws[i]? = some w → cs[i]? = some c → c.length ≤ w) →
    fits ws cs := by
  induction ws with
  | nil =>
    intro cs hlen _
    cases cs with
    | nil => trivial
    | cons _ _ => simp at hlen
  | cons w ws ih =>
    intro cs hlen h
    cases cs with
    | nil => simp at hlen
    | cons c cs =>
      refine ⟨h 0 w c (by simp) (by simp), ih cs (by simpa using hlen) ?_⟩
      intro i w1 c1 hw hc
      exact h (i + 1) w1 c1 (by simpa using hw) (by simpa using hc)

theorem aligned_line_length (ws : List Nat) : ∀ (cs : List Str), fits ws cs →
    (aligned_line ws cs).length = line_width ws := by
  induction ws with
  | nil =>
    intro cs _
    cases cs <;> rfl
  | cons w ws ih =>
    intro cs h
    cases cs with
    | nil => exact absurd h (by simp [fits])
    | cons c cs =>
      obtain ⟨hc, hrest⟩ := h
      simp only [aligned_line, List.length_append, aligned_cell_length w c hc, ih cs hrest,
        line_width, List.map_cons, List.sum_cons]
      omega

theorem aligned_line_head (ws : List Nat) (cs : List Str) :
    (aligned_line ws cs)[0]? = some '|' := by
  cases ws with
  | nil => cases cs <;> rfl
  | cons w ws =>
    cases cs with
    | nil => rfl
    | cons c cs => rfl

theorem aligned_line_bar (ws : List Nat) : ∀ (cs : List Str), fits ws cs →
    ∀ i, i ≤ ws.length → (aligned_line ws cs)[bar_offset ws i]? = some '|' := by
  induction ws with
  | nil =>
    intro cs _ i hi
    have : i = 0 := by simpa using hi
    subst this
    exact aligned_line_head [] cs
  | cons w ws ih =>
    intro cs h i hi
    cases cs with
    | nil => exact absurd h (by simp [fits])
    | cons c cs =>
      obtain ⟨hc, hrest⟩ := h
      cases i with
      | zero => exact aligned_line_head (w :: ws) (c :: cs)
      | succ i =>
        have hoff : bar_offset (w :: ws) (i + 1) = (w + 3) + bar_offset ws i := by
          simp [bar_offset]
        have hlen := aligned_cell_length w c hc
        rw [hoff]
        simp only [aligned_line]
        rw [List.getElem?_append_right (by omega)]
        have hsub : w + 3 + bar_offset ws i - (aligned_cell w c).length = bar_offset ws i := by
          omega
        rw [hsub]
        exact ih cs hrest i (by simpa using hi)

/-- The header loop of `print` writes the cells of an aligned line. -/
theorem print_header_eq (t : benchmark_table) (names : List Str) :
    ∀ n, (t.lengths.drop n).length = names.length →
      ∃ hs, print_header t n names = .ok hs
        ∧ hs ++ ['|'] = aligned_line (t.lengths.drop n) names := by
  induction names with
  | nil =>
    intro n _
    exact ⟨[], rfl, (aligned_line_nil_right _).symm⟩
  | cons name rest ih =>
    intro n hn
    have hlt : n < t.lengths.length := by
      simp only [List.length_drop, List.length_cons] at hn
      omega
    have hdrop : t.lengths.drop n = t.lengths[n] :: t.lengths.drop (n + 1) :=
      List.drop_eq_getElem_cons hlt
    obtain ⟨hs, hprint, heq⟩ := ih (n + 1) (by
      simp only [List.length_drop, List.length_cons] at hn ⊢
      omega)
    refine ⟨'|' :: ' ' :: setw t.lengths[n] name ++ ' ' :: hs, ?_, ?_⟩
    · simp only [print_header, print_cell, List.getElem?_eq_getElem hlt, hprint, bind,
        Except.bind, pure, Except.pure]
    · rw [hdrop]
      simp only [aligned_line, aligned_cell, setw, ← heq]
      simp

/-- A row of at least one field is written as an aligned line. -/
theorem print_row_t_eq (lens : List Nat) (fields : List field) :
    ∀ N, fields ≠ [] → (lens.drop N).length = fields.length →
      print_row_t lens N fields
        = .ok (aligned_line (lens.drop N) (fields.map lexical_cast_string)) := by
  induction fields with
  | nil => intro N h _; exact absurd rfl h
  | cons x rest ih =>
    intro N _ hN
    have hlt : N < lens.length := by
      simp only [List.length_drop, List.length_cons] at hN
      omega
    have hdrop : lens.drop N = lens[N] :: lens.drop (N + 1) := List.drop_eq_getElem_cons hlt
    cases rest with
    | nil =>
      have hnil : lens.drop (N + 1) = [] := by
        apply List.eq_nil_of_length_eq_zero
        simp only [List.length_drop, List.length_cons, List.length_nil] at hN ⊢
        omega
      rw [hdrop, hnil]
      simp only [print_row_t, print_cell, List.getElem?_eq_getElem hlt, bind, Except.bind,
        pure, Except.pure, List.map_cons, List.map_nil, aligned_line, aligned_cell, setw]
      simp
    | cons y rest =>
      have hrec := ih (N + 1) (by simp) (by
        simp only [List.length_drop, List.length_cons] at hN ⊢
        omega)
      rw [hdrop]
      simp only [print_row_t, print_cell, List.getElem?_eq_getElem hlt, hrec, bind, Except.bind,
        pure, Except.pure, List.map_cons, aligned_line, aligned_cell, setw]
      simp

theorem mapM_eq_map {α β : Type} (f : α → Except fault β) (g : α → β) (l : List α)
    (h : ∀ x ∈ l, f x = .ok (g x)) : l.mapM f = .ok (l.map g) := by
  induction l with
  | nil => rfl
  | cons x rest ih =>
    rw [List.mapM_cons, h x (by simp), ih (fun z hz => h z (List.mem_cons_of_mem _ hz))]
    rfl

theorem le_foldl_max (rows : List (List field)) (j : Nat) : ∀ w,
    w ≤ rows.foldl (fun w row => max w (cell_length row j)) w := by
  induction rows with
  | nil => intro w; exact Nat.le_refl w
  | cons row rest ih =>
    intro w
    exact Nat.le_trans (Nat.le_max_left _ _) (ih _)

theorem cell_length_le_foldl_max (rows : List (List field)) (j : Nat) : ∀ w, ∀ row ∈ rows,
    cell_length row j ≤ rows.foldl (fun w row => max w (cell_length row j)) w := by
  induction rows with
  | nil => intro w row h; simp at h
  | cons r rest ih =>
    intro w row h
    rcases List.mem_cons.1 h with h | h
    · rw [h]
      exact Nat.le_trans (Nat.le_max_right _ _) (le_foldl_max rest j _)
    · exact ih _ row h

/-- The widths of a table after rows of full arity: every label and every
stringified field fits the width of its column. -/
theorem add_all_fits (column_names : List Str) (rows : List (List field))
    (t : benchmark_table)
    (h : ∀ row ∈ rows, row.length = column_names.length)
    (ht : (benchmark_table.create column_names).add_all rows = .ok t) :
    t._column_names = column_names
      ∧ t.results = rows
      ∧ t.lengths.length = column_names.length
      ∧ fits t.lengths column_names
      ∧ ∀ row ∈ rows, fits t.lengths (row.map lexical_cast_string) := by
  obtain ⟨t1, ht1, hn, hr, hl, hw⟩ := add_all_spec rows (benchmark_table.create column_names)
    (by simpa [benchmark_table.create] using h)
  rw [ht] at ht1
  cases ht1
  have hl1 : t.lengths.length = column_names.length := by
    simpa [benchmark_table.create] using hl
  have hwidth : ∀ (i w : Nat), t.lengths[i]? = some w →
      ∃ c, column_names[i]? = some c
        ∧ w = rows.foldl (fun w row => max w (cell_length row i)) c.length := by
    intro i w hi
    have hlt : i < column_names.length := by
      rw [← hl1]
      exact (List.getElem?_eq_some.1 hi).1
    have h0 : (benchmark_table.create column_names).lengths[i]?
        = some column_names[i].length := by
      simp [benchmark_table.create, List.getElem?_map, List.getElem?_eq_getElem hlt]
    have := hw i _ h0
    rw [hi] at this
    exact ⟨column_names[i], List.getElem?_eq_getElem hlt, Option.some.inj this⟩
  refine ⟨by simpa [benchmark_table.create] using hn,
    by simpa [benchmark_table.create] using hr, hl1, ?_, ?_⟩
  · apply fits_of_pointwise _ _ hl1
    intro i w c hi hc
    obtain ⟨c1, hc1, hwe⟩ := hwidth i w hi
    rw [hc] at hc1
    cases hc1
    rw [hwe]
    exact le_foldl_max rows i _
  · intro row hrow
    apply fits_of_pointwise _ _ (by rw [hl1, List.length_map, h row hrow])
    intro i w c hi hc
    obtain ⟨c1, _, hwe⟩ := hwidth i w hi
    rw [List.getElem?_map] at hc
    cases ha : row[i]? with
    | none => rw [ha] at hc; cases hc
    | some a =>
      rw [ha] at hc
      simp only [Option.map_some', Option.some.injEq] at hc
      have hcl : cell_length row i = c.length := by
        simp [cell_length, ha, hc]
      rw [hwe, ← hcl]
      exact cell_length_le_foldl_max rows i _ row hrow

/-- C16. Generic renderer alignment: for a `benchmark_table` with at least one
column label to which rows of as many fields have been added, `print` emits
one line for the header and then one line per row, in the order the rows were
added; each line is the aligned line of its texts, every cell right-justified
in the width of its column, which is the maximum over the label and the
fields of that column; every line has the same length, the sum over the
columns of the width plus 3, plus 1, and has a bar at the same offset in front
of every column and at its end. -/
theorem print_is_aligned (column_names : List Str) (rows : List (List field))
    (hk : 1 ≤ column_names.length)
    (h : ∀ row ∈ rows, row.length = column_names.length) :
    ∃ t lines, (benchmark_table.create column_names).add_all rows = .ok t
      ∧ t.print = .ok lines
      ∧ (∀ i, i < column_names.length →
          t.lengths[i]? = some (column_width column_names rows i))
      ∧ lines = aligned_line t.lengths column_names
          :: rows.map (fun row => aligned_line t.lengths (row.map lexical_cast_string))
      ∧ lines.length = 1 + rows.length
      ∧ ∀ text ∈ lines, text.length = line_width t.lengths
          ∧ ∀ i, i ≤ column_names.length → text[bar_offset t.lengths i]? = some '|' := by
  obtain ⟨t, ht, _, _, _, hw⟩ := add_all_spec rows (benchmark_table.create column_names)
    (by simpa [benchmark_table.create] using h)
  obtain ⟨hn, hr, hl, hfn, hfr⟩ := add_all_fits column_names rows t h ht
  obtain ⟨hs, hhead, hheq⟩ := print_header_eq t column_names 0 (by simpa using hl)
  have hrows : t.results.mapM (fun result => print_row_t t.lengths 0 result)
      = .ok (rows.map (fun row => aligned_line t.lengths (row.map lexical_cast_string))) := by
    rw [hr]
    apply mapM_eq_map
    intro row hrow
    have hne : row ≠ [] := by
      intro he
      have := h row hrow
      rw [he] at this
      simp at this
      omega
    have := print_row_t_eq t.lengths row 0 hne (by simpa [h row hrow] using hl)
    simpa using this
  have hprint : t.print
      = .ok (aligned_line t.lengths column_names
          :: rows.map (fun row => aligned_line t.lengths (row.map lexical_cast_string))) := by
    simp only [benchmark_table.print, hn, hhead, hrows, bind, Except.bind, pure, Except.pure]
    rw [hheq]
    simp
  refine ⟨t, _, ht, hprint, ?_, rfl, by simp [Nat.add_comm], ?_⟩
  · intro i hi
    have h0 : (benchmark_table.create column_names).lengths[i]?
        = some (column_names.getD i []).length := by
      simp [benchmark_table.create, List.getElem?_map, List.getD_eq_getElem?_getD,
        List.getElem?_eq_getElem hi]
    rw [hw i _ h0]
    rfl
  · intro line hline
    have hfit : ∃ cs, fits t.lengths cs ∧ line = aligned_line t.lengths cs := by
      rcases List.mem_cons.1 hline with hline | hline
      · exact ⟨column_names, hfn, hline⟩
      · obtain ⟨row, hrow, hrl⟩ := List.mem_map.1 hline
        exact ⟨row.map lexical_cast_string, hfr row hrow, hrl.symm⟩
    obtain ⟨cs, hcs, rfl⟩ := hfit
    refine ⟨aligned_line_length t.lengths cs hcs, ?_⟩
    intro i hi
    exact aligned_line_bar t.lengths cs hcs i (by rw [hl]; exact hi)

/-- The labels `name`, `n` and the rows `adder`, 1234 and `x`, 5. -/
theorem print_is_aligned_witness :
    1 ≤ ["name".toList, "n".toList].length
      ∧ (∀ row ∈ name_gates_rows, row.length = ["name".toList, "n".toList].length)
      ∧ ((benchmark_table.create ["name".toList, "n".toList]).add_all name_gates_rows).bind
          benchmark_table.print
        = .ok ["|  name |    n |".toList, "| adder | 1234 |".toList, "|     x |    5 |".toList]
      ∧ ∃ t lines,
        (benchmark_table.create ["name".toList, "n".toList]).add_all name_gates_rows = .ok t
        ∧ t.print = .ok lines
        ∧ (∀ i, i < ["name".toList, "n".toList].length →
            t.lengths[i]? = some (column_width ["name".toList, "n".toList] name_gates_rows i))
        ∧ lines = aligned_line t.lengths ["name".toList, "n".toList]
            :: name_gates_rows.map
              (fun row => aligned_line t.lengths (row.map lexical_cast_string))
        ∧ lines.length = 1 + name_gates_rows.length
        ∧ ∀ text ∈ lines, text.length = line_width t.lengths
            ∧ ∀ i, i ≤ ["name".toList, "n".toList].length →
              text[bar_offset t.lengths i]? = some '|' :=
  ⟨by decide, by decide, by decide,
    print_is_aligned ["name".toList, "n".toList] name_gates_rows (by decide) (by decide)⟩

/-! ## Printing after an `add` -/

theorem add_all_spec_le (rows : List (List field)) (t : benchmark_table)
    (h : ∀ row ∈ rows, row.length ≤ t.lengths.length) :
    ∃ t1, t.add_all rows = .ok t1
      ∧ t1._column_names = t._column_names
      ∧ t1.results = t.results ++ rows
      ∧ t1.lengths.length = t.lengths.length
      ∧ ∀ j w, t.lengths[j]? = some w →
          t1.lengths[j]?
            = some (rows.foldl (fun w row => max w (cell_length row j)) w) := by
  induction rows generalizing t with
  | nil => exact ⟨t, rfl, rfl, by simp, rfl, fun j w hj => by simpa using hj⟩
  | cons row rest ih =>
    obtain ⟨t1, h1, hn1, hr1, hl1, hw1⟩ := add_spec t row (h row (by simp))
    obtain ⟨t2, h2, hn2, hr2, hl2, hw2⟩ := ih t1
      (fun r hr => by rw [hl1]; exact h r (List.mem_cons_of_mem _ hr))
    refine ⟨t2, ?_, hn2.trans hn1, ?_, hl2.trans hl1, ?_⟩
    · simp only [benchmark_table.add_all, List.foldlM_cons, h1, bind, Except.bind]
      exact h2
    · rw [hr2, hr1]
      simp
    · intro j w hj
      rw [hw2 j _ (hw1 j w hj)]
      rfl

/-- A row of at least one field and of no more fields than there are widths
is written as an aligned line. -/
theorem print_row_t_eq_le (lens : List Nat) (fields : List field) :
    ∀ N, fields ≠ [] → fields.length ≤ (lens.drop N).length →
      print_row_t lens N fields
        = .ok (aligned_line (lens.drop N) (fields.map lexical_cast_string)) := by
  induction fields with
  | nil => intro N h _; exact absurd rfl h
  | cons x rest ih =>
    intro N _ hN
    have hlt : N < lens.length := by
      simp only [List.length_drop, List.length_cons] at hN
      omega
    have hdrop : lens.drop N = lens[N] :: lens.drop (N + 1) := List.drop_eq_getElem_cons hlt
    cases rest with
    | nil =>
      rw [hdrop]
      simp only [print_row_t, print_cell, List.getElem?_eq_getElem hlt, bind, Except.bind,
        pure, Except.pure, List.map_cons, List.map_nil, aligned_line, aligned_cell, setw,
        aligned_line_nil_right]
      simp
    | cons y rest =>
      have hrec := ih (N + 1) (by simp) (by
        simp only [List.length_drop, List.length_cons] at hN ⊢
        omega)
      rw [hdrop]
      simp only [print_row_t, print_cell, List.getElem?_eq_getElem hlt, hrec, bind, Except.bind,
        pure, Except.pure, List.map_cons, aligned_line, aligned_cell, setw]
      simp

theorem fits_pointwise_tail (w : Nat) (ws : List Nat) (c : Str) (cs : List Str)
    (h : fits_pointwise (w :: ws) (c :: cs)) : c.length ≤ w ∧ fits_pointwise ws cs := by
  refine ⟨h 0 w c (by simp) (by simp), ?_⟩
  intro j w1 c1 hw hc
  exact h (j + 1) w1 c1 (by simpa using hw) (by simpa using hc)

/-- In a line whose texts fit their columns, what follows the bar offset of
column `i` is the line of the columns from `i` on. -/
theorem aligned_line_drop (ws : List Nat) : ∀ (cs : List Str) (i : Nat),
    fits_pointwise ws cs → i ≤ ws.length → i ≤ cs.length →
    (aligned_line ws cs).drop (bar_offset ws i) = aligned_line (ws.drop i) (cs.drop i) := by
  induction ws with
  | nil =>
    intro cs i _ hi _
    have : i = 0 := by simpa using hi
    subst this
    rfl
  | cons w ws ih =>
    intro cs i hfit hi hic
    cases i with
    | zero => rfl
    | succ i =>
      cases cs with
      | nil => simp at hic
      | cons c cs =>
        obtain ⟨hc, hrest⟩ := fits_pointwise_tail w ws c cs hfit
        have hoff : bar_offset (w :: ws) (i + 1) = (aligned_cell w c).length + bar_offset ws i := by
          rw [aligned_cell_length w c hc]
          simp [bar_offset]
        rw [hoff]
        simp only [aligned_line, List.drop_succ_cons]
        rw [List.drop_append]
        exact ih cs i hrest (by simpa using hi) (by simpa using hic)

/-- In a line whose texts fit their columns, the cell of column `i` stands at
the bar offset of that column: the text right-justified in the width of the
column, between a bar with a blank and a blank. -/
theorem aligned_line_cell (ws : List Nat) (cs : List Str) (i w : Nat) (c : Str)
    (hfit : fits_pointwise ws cs) (hw : ws[i]? = some w) (hc : cs[i]? = some c) :
    ((aligned_line ws cs).drop (bar_offset ws i)).take (w + 3) = aligned_cell w c := by
  obtain ⟨hiw, hwe⟩ := List.getElem?_eq_some.1 hw
  obtain ⟨hic, hce⟩ := List.getElem?_eq_some.1 hc
  rw [aligned_line_drop ws cs i hfit (Nat.le_of_lt hiw) (Nat.le_of_lt hic),
    List.drop_eq_getElem_cons hiw, List.drop_eq_getElem_cons hic, hwe, hce]
  simp only [aligned_line]
  have hlen : (aligned_cell w c).length = w + 3 := aligned_cell_length w c (hfit i w c hw hc)
  rw [← hlen, List.take_left']
  rfl

/-- The widths of a table after rows of no more fields than labels: every
label and every stringified field fits the width of its column. -/
theorem add_all_fits_le (column_names : List Str) (rows : List (List field))
    (t : benchmark_table)
    (h : ∀ row ∈ rows, row.length ≤ column_names.length)
    (ht : (benchmark_table.create column_names).add_all rows = .ok t) :
    t._column_names = column_names
      ∧ t.results = rows
      ∧ t.lengths.length = column_names.length
      ∧ fits_pointwise t.lengths column_names
      ∧ ∀ row ∈ rows, fits_pointwise t.lengths (row.map lexical_cast_string) := by
  obtain ⟨t1, ht1, hn, hr, hl, hw⟩ := add_all_spec_le rows (benchmark_table.create column_names)
    (by simpa [benchmark_table.create] using h)
  rw [ht] at ht1
  cases ht1
  have hl1 : t.lengths.length = column_names.length := by
    simpa [benchmark_table.create] using hl
  have hwidth : ∀ (i w : Nat), t.lengths[i]? = some w →
      ∃ c, column_names[i]? = some c
        ∧ w = rows.foldl (fun w row => max w (cell_length row i)) c.length := by
    intro i w hi
    have hlt : i < column_names.length := by
      rw [← hl1]
      exact (List.getElem?_eq_some.1 hi).1
    have h0 : (benchmark_table.create column_names).lengths[i]?
        = some column_names[i].length := by
      simp [benchmark_table.create, List.getElem?_map, List.getElem?_eq_getElem hlt]
    have := hw i _ h0
    rw [hi] at this
    exact ⟨column_names[i], List.getElem?_eq_getElem hlt, Option.some.inj this⟩
  refine ⟨by simpa [benchmark_table.create] using hn,
    by simpa [benchmark_table.create] using hr, hl1, ?_, ?_⟩
  · intro i w c hi hc
    obtain ⟨c1, hc1, hwe⟩ := hwidth i w hi
    rw [hc] at hc1
    cases hc1
    rw [hwe]
    exact le_foldl_max rows i _
  · intro row hrow i w c hi hc
    obtain ⟨c1, _, hwe⟩ := hwidth i w hi
    rw [List.getElem?_map] at hc
    cases ha : row[i]? with
    | none => rw [ha] at hc; cases hc
    | some a =>
      rw [ha] at hc
      simp only [Option.map_some', Option.some.injEq] at hc
      have hcl : cell_length row i = c.length := by
        simp [cell_length, ha, hc]
      rw [hwe, ← hcl]
      exact cell_length_le_foldl_max rows i _ row hrow

theorem add_all_append_singleton (t t1 t2 : benchmark_table) (rows : List (List field))
    (args : List field) (ht : t.add_all rows = .ok t1) (h1 : t1.add args = .ok t2) :
    t.add_all (rows ++ [args]) = .ok t2 := by
  unfold benchmark_table.add_all at ht ⊢
  rw [List.foldlM_append, ht]
  simp only [bind, Except.bind, List.foldlM_cons, List.foldlM_nil, h1, pure, Except.pure]

/-- A table built by the constructor and rows of at least one field and of no
more fields than labels is printed as the aligned lines of its labels and of
its rows, in the widths it holds. -/
theorem print_eq_aligned_lines (column_names : List Str) (rows : List (List field))
    (t : benchmark_table)
    (h : ∀ row ∈ rows, row ≠ [] ∧ row.length ≤ column_names.length)
    (ht : (benchmark_table.create column_names).add_all rows = .ok t) :
    t.print = .ok (aligned_line t.lengths column_names
      :: rows.map (fun row => aligned_line t.lengths (row.map lexical_cast_string))) := by
  obtain ⟨hn, hr, hl, _, _⟩ := add_all_fits_le column_names rows t (fun row hrow => (h row hrow).2)
    ht
  obtain ⟨hs, hhead, hheq⟩ := print_header_eq t column_names 0 (by simpa using hl)
  have hrows : t.results.mapM (fun result => print_row_t t.lengths 0 result)
      = .ok (rows.map (fun row => aligned_line t.lengths (row.map lexical_cast_string))) := by
    rw [hr]
    apply mapM_eq_map
    intro row hrow
    have := print_row_t_eq_le t.lengths row 0 (h row hrow).1
      (by simpa [hl] using (h row hrow).2)
    simpa using this
  simp only [benchmark_table.print, hn, hhead, hrows, bind, Except.bind, pure, Except.pure]
  rw [hheq]
  simp

/-- C10, the claim fails: a table built from the one label `name` to which a
row of two fields is added is not a case of growing widths; `add` reads
`lengths[1]` past the end of the one width and leaves no table state. -/
theorem add_of_longer_row_is_out_of_range :
    (benchmark_table.create ["name".toList]).add [field.str "adder".toList, field.uns 5]
        = .error .out_of_range
      ∧ (benchmark_table.create ["name".toList]).lengths = [4]
      ∧ ∀ t1, (benchmark_table.create ["name".toList]).add
          [field.str "adder".toList, field.uns 5] ≠ .ok t1 := by
  have h : (benchmark_table.create ["name".toList]).add [field.str "adder".toList, field.uns 5]
      = .error .out_of_range := by decide
  refine ⟨h, by decide, ?_⟩
  intro t1 h1
  rw [h] at h1
  cases h1

/-- C10, amended. Column-width monotonicity of the generic renderer: for every
table state and every added row with no more fields than the table has
columns, `add` succeeds, no column's width after it is smaller than before,
and for every column whose new field's stringified length exceeds the current
width, the width after `add` is that length, strictly larger. It is the width
the header and all rows are subsequently printed with: when the state is that
of a table built by the constructor and rows of at least one field and no
more fields than labels, `print` then writes the aligned lines of the labels
and of all rows in the new widths, and in each of these lines the cell of such
a column is its text right-justified in exactly that length. -/
theorem add_widths_monotone (t : benchmark_table) (args : List field)
    (h : args.length ≤ t.lengths.length) :
    ∃ t1, t.add args = .ok t1
      ∧ t1.lengths.length = t.lengths.length
      ∧ (∀ (i w : Nat), t.lengths[i]? = some w → ∃ w1, t1.lengths[i]? = some w1 ∧ w ≤ w1)
      ∧ (∀ (i w : Nat) (a : field), t.lengths[i]? = some w → args[i]? = some a →
          w < (lexical_cast_string a).length →
          t1.lengths[i]? = some (lexical_cast_string a).length)
      ∧ ∀ (column_names : List Str) (rows : List (List field)),
          (∀ row ∈ rows, row ≠ [] ∧ row.length ≤ column_names.length) → args ≠ [] →
          (benchmark_table.create column_names).add_all rows = .ok t →
          t1.print = .ok (aligned_line t1.lengths column_names
              :: (rows ++ [args]).map
                (fun row => aligned_line t1.lengths (row.map lexical_cast_string)))
            ∧ ∀ (i w : Nat) (a : field), t.lengths[i]? = some w → args[i]? = some a →
                w < (lexical_cast_string a).length →
                ∀ cells ∈ column_names
                    :: (rows ++ [args]).map (fun row => row.map lexical_cast_string),
                  ∀ c, cells[i]? = some c →
                    c.length ≤ (lexical_cast_string a).length
                      ∧ ((aligned_line t1.lengths cells).drop (bar_offset t1.lengths i)).take
                            ((lexical_cast_string a).length + 3)
                          = aligned_cell (lexical_cast_string a).length c := by
  obtain ⟨t1, h1, _, _, hl, hw⟩ := add_spec t args h
  have hstrict : ∀ (i w : Nat) (a : field), t.lengths[i]? = some w → args[i]? = some a →
      w < (lexical_cast_string a).length →
      t1.lengths[i]? = some (lexical_cast_string a).length := by
    intro i w a hi ha hlt
    have hc : cell_length args i = (lexical_cast_string a).length := by
      simp [cell_length, ha]
    rw [hw i w hi, hc]
    congr 1
    omega
  refine ⟨t1, h1, hl, ?_, hstrict, ?_⟩
  · intro i w hi
    exact ⟨_, hw i w hi, Nat.le_max_left _ _⟩
  · intro column_names rows hrows hargs hreach
    have hlen : t.lengths.length = column_names.length :=
      (add_all_fits_le column_names rows t (fun row hrow => (hrows row hrow).2) hreach).2.2.1
    have hall : ∀ row ∈ rows ++ [args], row ≠ [] ∧ row.length ≤ column_names.length := by
      intro row hrow
      rcases List.mem_append.1 hrow with hrow | hrow
      · exact hrows row hrow
      · have : row = args := by simpa using hrow
        rw [this]
        exact ⟨hargs, by rw [← hlen]; exact h⟩
    have hreach1 := add_all_append_singleton (benchmark_table.create column_names) t t1 rows
      args hreach h1
    obtain ⟨_, _, _, hfn, hfr⟩ := add_all_fits_le column_names (rows ++ [args]) t1
      (fun row hrow => (hall row hrow).2) hreach1
    refine ⟨print_eq_aligned_lines column_names (rows ++ [args]) t1 hall hreach1, ?_⟩
    intro i w a hi ha hlt cells hcells c hc
    have hget := hstrict i w a hi ha hlt
    have hfit : fits_pointwise t1.lengths cells := by
      rcases List.mem_cons.1 hcells with hcells | hcells
      · rw [hcells]
        exact hfn
      · obtain ⟨row, hrow, hrl⟩ := List.mem_map.1 hcells
        rw [← hrl]
        exact hfr row hrow
    exact ⟨hfit i _ c hget hc, aligned_line_cell t1.lengths cells i _ c hfit hget hc⟩

/-- The row `adder`, 1234 added to the fresh table with the labels `name` and
`n`: both widths grow, and header and row are printed in the new widths. -/
theorem add_widths_monotone_witness :
    adder_1234.length ≤ name_gates_table.lengths.length
      ∧ name_gates_table.lengths = [4, 1]
      ∧ (benchmark_table.create ["name".toList, "n".toList]).add_all [] = .ok name_gates_table
      ∧ (name_gates_table.add adder_1234).bind benchmark_table.print
          = .ok ["|  name |    n |".toList, "| adder | 1234 |".toList]
      ∧ ∃ t1, name_gates_table.add adder_1234 = .ok t1
        ∧ t1.lengths.length = name_gates_table.lengths.length
        ∧ (∀ (i w : Nat), name_gates_table.lengths[i]? = some w →
            ∃ w1, t1.lengths[i]? = some w1 ∧ w ≤ w1)
        ∧ (∀ (i w : Nat) (a : field), name_gates_table.lengths[i]? = some w →
            adder_1234[i]? = some a → w < (lexical_cast_string a).length →
            t1.lengths[i]? = some (lexical_cast_string a).length)
        ∧ ∀ (column_names : List Str) (rows : List (List field)),
            (∀ row ∈ rows, row ≠ [] ∧ row.length ≤ column_names.length) → adder_1234 ≠ [] →
            (benchmark_table.create column_names).add_all rows = .ok name_gates_table →
            t1.print = .ok (aligned_line t1.lengths column_names
                :: (rows ++ [adder_1234]).map
                  (fun row => aligned_line t1.lengths (row.map lexical_cast_string)))
              ∧ ∀ (i w : Nat) (a : field), name_gates_table.lengths[i]? = some w →
                  adder_1234[i]? = some a → w < (lexical_cast_string a).length →
                  ∀ cells ∈ column_names
                      :: (rows ++ [adder_1234]).map (fun row => row.map lexical_cast_string),
                    ∀ c, cells[i]? = some c →
                      c.length ≤ (lexical_cast_string a).length
                        ∧ ((aligned_line t1.lengths cells).drop (bar_offset t1.lengths i)).take
                              ((lexical_cast_string a).length + 3)
                            = aligned_cell (lexical_cast_string a).length c :=
  ⟨by decide, by decide, by decide, by decide,
    add_widths_monotone name_gates_table adder_1234 (by decide)⟩

end BenchmarkTable
